import Mathlib

/-!
Verification of the scan orchestration engine of the github-lfs-repositor
project (source: `src/lib/github.ts`).

The TypeScript source is embedded shallowly:

* JavaScript strings are modelled as `Str := List Char`, so that
  `split('\n')`, `toLowerCase()`, `trim()` and substring search
  (`includes`) can be reasoned about directly.
* Network effects are modelled by oracles: a function from request data
  (page number, token, file path, attempt number) to the observed outcome.
  Thrown JavaScript exceptions become `Except` / explicit error outcomes.
* The mutable `ScanState` object threaded through `checkAllReposForJfrog`
  becomes explicit state passing; `Promise.all` over a batch becomes
  `List.mapM` in the `Except` monad (the whole batch either yields a list
  of results or a single error).
-/

namespace GithubLfs

/-- JavaScript strings, modelled as lists of characters. -/
abbrev Str := List Char

/-- Model of JavaScript `s.toLowerCase()`. -/
def lowerStr (s : Str) : Str := s.map Char.toLower

/-- The marker substring `'jfrog'` searched for inside `.lfsconfig` files. -/
def markerStr : Str := ['j', 'f', 'r', 'o', 'g']

/-- Model of `s.toLowerCase().includes('jfrog')` (source lines 370 and 373). -/
def containsMarker (s : Str) : Bool := decide (markerStr <:+: lowerStr s)

/-- Model of JavaScript `content.split('\n')`: split at every newline,
keeping empty segments (an empty string yields one empty line). -/
def splitLines : Str → List Str
  | [] => [[]]
  | c :: rest =>
    if c = '\n' then [] :: splitLines rest
    else
      match splitLines rest with
      | [] => [[c]]
      | l :: ls => (c :: l) :: ls

/-- Model of JavaScript `s.trim()`: drop whitespace from both ends. -/
def trimStr (s : Str) : Str :=
  ((s.dropWhile Char.isWhitespace).reverse.dropWhile Char.isWhitespace).reverse

/-- The `Repository` record of `src/lib/github.ts` (lines 1-13). -/
structure Repository where
  id : Nat
  name : Str
  full_name : Str
  html_url : Str
  description : Option Str
  size : Nat
  default_branch : Str
  pushed_at : Str
  hasJfrog : Option Bool
  jfrogUrls : List Str
  configLocations : List Str
deriving Repr, DecidableEq

/-- The `ScanState` checkpoint record (source lines 67-77). -/
structure ScanState where
  orgName : Str
  createdAt : Str
  allRepos : List Repository
  scannedRepoIds : List Nat
  pendingRepoIds : List Nat
  jfrogRepos : List Repository
  lastError : Option Str
  isComplete : Bool
  ghesHost : Option Str
deriving Repr, DecidableEq

/-- Ids of a repository list. -/
def idsOf (rs : List Repository) : List Nat := rs.map (fun r => r.id)

/-- The Scan State invariant of the specification: scanned and pending ids
partition the full id set, scanned ids are unique, every matched repository
has been scanned, and completion means nothing is pending. -/
def ScanInv (s : ScanState) : Prop :=
  (∀ i ∈ s.scannedRepoIds, i ∈ idsOf s.allRepos) ∧
  (∀ i ∈ s.pendingRepoIds, i ∈ idsOf s.allRepos) ∧
  (∀ i ∈ idsOf s.allRepos, i ∈ s.scannedRepoIds ∨ i ∈ s.pendingRepoIds) ∧
  (∀ i ∈ s.scannedRepoIds, i ∉ s.pendingRepoIds) ∧
  s.scannedRepoIds.Nodup ∧
  (∀ r ∈ s.jfrogRepos, r.id ∈ s.scannedRepoIds) ∧
  (s.isComplete = true → s.pendingRepoIds = [])

instance (s : ScanState) : Decidable (ScanInv s) := by
  unfold ScanInv; infer_instance

/-- Errors a batch member can throw: `RateLimitError` (carrying the reset
instant), `NetworkError`/`ServerError` (both reported as network errors by
the orchestrator, lines 477-484), or any other exception.  Each carries its
`message` text. -/
inductive ScanError where
  | rateLimit (reset : Int) (msg : Str)
  | network (msg : Str)
  | other (msg : Str)
deriving Repr, DecidableEq

/-- JavaScript `error.message`. -/
def ScanError.message : ScanError → Str
  | .rateLimit _ msg => msg
  | .network msg => msg
  | .other msg => msg

/-- One result commit in the batch loop of `checkAllReposForJfrog`
(source lines 451-460): push the id onto `scannedRepoIds`, filter it out of
`pendingRepoIds`, and append the repository to `jfrogRepos` when
`result.hasJfrog` is truthy. -/
def commitResult (s : ScanState) (result : Repository) : ScanState :=
  { s with
    scannedRepoIds := s.scannedRepoIds ++ [result.id]
    pendingRepoIds := s.pendingRepoIds.filter (fun id => id ≠ result.id)
    jfrogRepos :=
      if result.hasJfrog = some true then s.jfrogRepos ++ [result]
      else s.jfrogRepos }

/-- Folding a whole batch of results into the state (the `for` loop at
source lines 451-460). -/
def commitBatch (s : ScanState) (results : List Repository) : ScanState :=
  results.foldl commitResult s

/-- The fresh `ScanState` built at source lines 414-423 when no existing
state is supplied.  `orgName` and `createdAt` are parameters: the source
derives them from the first repository slug and the wall clock. -/
def initialScanState (repos : List Repository) (orgName createdAt : Str)
    (ghesHost : Option Str) : ScanState :=
  { orgName := orgName
    createdAt := createdAt
    allRepos := repos
    scannedRepoIds := []
    pendingRepoIds := idsOf repos
    jfrogRepos := []
    lastError := none
    isComplete := false
    ghesHost := ghesHost }

/-- `repos.filter(r => scanState.pendingRepoIds.includes(r.id))`
(source line 425). -/
def pendingReposOf (repos : List Repository) (s : ScanState) : List Repository :=
  repos.filter (fun r => s.pendingRepoIds.contains r.id)

/-- Fuel-driven slicing helper: `chunksOfGo n fuel l` cuts `l` into slices of
length `n` (the loop `for (i = 0; i < len; i += concurrency)` with
`slice(i, i + concurrency)`, source lines 433-444). -/
def chunksOfGo (n : Nat) : Nat → List Repository → List (List Repository)
  | 0, _ => []
  | _, [] => []
  | fuel + 1, l => l.take n :: chunksOfGo n fuel (l.drop n)

/-- The successive batches of the orchestrator loop. -/
def chunksOf (n : Nat) (l : List Repository) : List (List Repository) :=
  chunksOfGo n l.length l

/-- `Promise.all(batch.map(repo => checkRepoForJfrog(...)))` (source lines
447-449): either every member of the batch yields a result, or the whole
batch yields one error. -/
def batchCheckAll (check : Repository → Except ScanError Repository)
    (batch : List Repository) : Except ScanError (List Repository) :=
  batch.mapM check

/-- The `ScanResult` record returned by `checkAllReposForJfrog`
(source lines 391-398).  `Date` values are modelled as `Int` epoch data. -/
structure ScanResult where
  repos : List Repository
  isPartial : Bool
  rateLimitReset : Option Int
  errorMessage : Option Str
  scanState : ScanState
  wasPaused : Option Bool
deriving Repr, DecidableEq

/-- The pause message built at source line 439. -/
def pauseMessage (s : ScanState) : Str :=
  "Scan paused by user. ".toList ++ (toString s.scannedRepoIds.length).toList ++
    " repos scanned, ".toList ++ (toString s.pendingRepoIds.length).toList ++
    " remaining.".toList

/-- The network-error message built at source line 481. -/
def networkMessage (msg : Str) (s : ScanState) : Str :=
  "Network error: ".toList ++ msg ++ ". ".toList ++
    (toString s.scannedRepoIds.length).toList ++ " repos scanned, ".toList ++
    (toString s.pendingRepoIds.length).toList ++ " remaining.".toList

/-- The completion step at source lines 499-500. -/
def finishScan (s : ScanState) : ScanState :=
  { s with isComplete := true, pendingRepoIds := [] }

/-- The batch loop of `checkAllReposForJfrog` (source lines 433-506),
processing the pre-sliced batches in order.  `shouldCancel` is indexed by
the batch number (one call per iteration, source line 434).  The `results`
array of the source always holds exactly the matched repositories
accumulated in `scanState.jfrogRepos` (both receive the same pushes,
lines 456-457), so the returned `repos` field is the state's matched list. -/
def runBatches (check : Repository → Except ScanError Repository)
    (shouldCancel : Nat → Bool) :
    List (List Repository) → Nat → ScanState → ScanResult
  | [], _, s =>
    let s' := finishScan s
    { repos := s'.jfrogRepos, isPartial := false, rateLimitReset := none
      errorMessage := none, scanState := s', wasPaused := none }
  | batch :: rest, k, s =>
    if shouldCancel k then
      { repos := s.jfrogRepos, isPartial := true, rateLimitReset := none
        errorMessage := some (pauseMessage s), scanState := s
        wasPaused := some true }
    else
      match batchCheckAll check batch with
      | .ok results => runBatches check shouldCancel rest (k + 1) (commitBatch s results)
      | .error e =>
        let s' := { s with lastError := some e.message }
        match e with
        | .rateLimit reset msg =>
          { repos := s'.jfrogRepos, isPartial := true, rateLimitReset := some reset
            errorMessage := some msg, scanState := s', wasPaused := none }
        | .network msg =>
          { repos := s'.jfrogRepos, isPartial := true, rateLimitReset := none
            errorMessage := some (networkMessage msg s'), scanState := s'
            wasPaused := none }
        | .other msg =>
          { repos := s'.jfrogRepos, isPartial := true, rateLimitReset := none
            errorMessage := some msg, scanState := s', wasPaused := none }

/-- `checkAllReposForJfrog` (source lines 400-507).  The per-repository
check is the oracle `check` (the outcome of `checkRepoForJfrog` for this
run); `hasToken` selects the batch size 5 (authenticated) or 2. -/
def checkAllReposForJfrog (repos : List Repository)
    (check : Repository → Except ScanError Repository)
    (shouldCancel : Nat → Bool) (existing : Option ScanState)
    (orgName createdAt : Str) (ghesHost : Option Str) (hasToken : Bool) :
    ScanResult :=
  let s := existing.getD (initialScanState repos orgName createdAt ghesHost)
  let pend := pendingReposOf repos s
  let conc := if hasToken then 5 else 2
  runBatches check shouldCancel (chunksOf conc pend) 0 s

/-- Concrete repository used by the evaluation witnesses. -/
def exRepoA : Repository :=
  { id := 1, name := "alpha".toList, full_name := "acme/alpha".toList
    html_url := "https://github.com/acme/alpha".toList, description := none
    size := 10, default_branch := "main".toList
    pushed_at := "2024-01-01T00:00:00Z".toList, hasJfrog := none
    jfrogUrls := [], configLocations := [] }

/-- Second concrete repository used by the evaluation witnesses. -/
def exRepoB : Repository :=
  { id := 2, name := "beta".toList, full_name := "acme/beta".toList
    html_url := "https://github.com/acme/beta".toList, description := none
    size := 20, default_branch := "main".toList
    pushed_at := "2024-01-02T00:00:00Z".toList, hasJfrog := none
    jfrogUrls := [], configLocations := [] }

/-- Per-repository check oracle for the C2 witness: repository id 2 fails. -/
def exCheckFail : Repository → Except ScanError Repository :=
  fun r => if r.id = 2 then Except.error (ScanError.other "boom".toList)
    else Except.ok r

/-- Initial state of the C2 witness scan. -/
def exState0 : ScanState :=
  initialScanState [exRepoA, exRepoB] "acme".toList "t0".toList none

/-- An HTTP response as observed by the rate-limit coordinator: the status
and the three parsed rate-limit headers (`parseInt(header || default)`,
source lines 197-199). -/
structure Resp where
  status : Nat
  remaining : Int
  limit : Int
  reset : Int
deriving Repr, DecidableEq

/-- The credential pool state shared by `fetchWithTokenRotation` and the
`TokenManager` built in `App.tsx` (lines 98-112): the token list, the
rotating index, and the tried-this-request set (modelled as a
duplicate-free list, matching JavaScript `Set`). -/
structure TokenPool where
  tokens : List Str
  index : Nat
  tried : List Str
deriving Repr, DecidableEq

/-- `getCurrentToken` of `App.tsx` (lines 98-101): `null` when the pool is
empty, else `tokens[index % tokens.length]`. -/
def TokenPool.getToken (p : TokenPool) : Option Str :=
  if p.tokens.isEmpty then none else p.tokens[p.index % p.tokens.length]?

/-- `rotateToken` of `App.tsx` (lines 103-108): advance the index modulo
the pool size; a no-op for pools of size ≤ 1. -/
def TokenPool.rotateToken (p : TokenPool) : TokenPool :=
  if p.tokens.length > 1 then
    { p with index := (p.index + 1) % p.tokens.length }
  else p

/-- `triedTokens.add(token)` (source line 204): JavaScript `Set.add`. -/
def TokenPool.addTried (p : TokenPool) (t : Str) : TokenPool :=
  if t ∈ p.tried then p else { p with tried := p.tried ++ [t] }

/-- Outcome of `fetchWithTokenRotation`: a returned response (with the
pool's tried set cleared), a thrown `RateLimitError` carrying the reset
instant, or fuel exhaustion of the model's `while (true)` loop. -/
inductive RotationResult where
  | ok (r : Resp) (p : TokenPool)
  | rateLimited (reset : Int) (p : TokenPool)
  | fuelOut
deriving Repr, DecidableEq

/-- `fetchWithTokenRotation` (source lines 179-219).  `respond` is the
oracle giving the response the transport layer yields for a request
carrying the given credential.  Per iteration: if the response is a 403
with parsed remaining quota 0, the current credential (if any) is added to
the tried set; with more than one credential and an untried one left, the
pool rotates and the request is retried, otherwise a `RateLimitError` with
the reset instant is thrown.  Any other response clears the tried set and
is returned. -/
def fetchWithTokenRotation (respond : Option Str → Resp) :
    Nat → TokenPool → RotationResult
  | 0, _ => .fuelOut
  | fuel + 1, p =>
    let token := p.getToken
    let resp := respond token
    if resp.status = 403 ∧ resp.remaining = 0 then
      let p' := match token with
        | some t => p.addTried t
        | none => p
      if p'.tokens.length > 1 ∧ p'.tried.length < p'.tokens.length then
        fetchWithTokenRotation respond fuel p'.rotateToken
      else
        .rateLimited resp.reset p'
    else
      .ok resp { p with tried := [] }

/-- Exceptions a single `fetch` attempt can raise (source lines 150-162):
an abort (timeout), a `TypeError` whose text marks a CORS-style blocked
connection, or any other exception. -/
inductive FetchFailure where
  | abortError
  | corsTypeError (msg : Str)
  | otherError (msg : Str)
deriving Repr, DecidableEq

/-- Outcome of one `fetch` attempt: a response or a raised exception. -/
inductive AttemptOutcome where
  | success (r : Resp)
  | failure (f : FetchFailure)
deriving Repr, DecidableEq

/-- The `lastError` variable of `fetchWithRetry`. -/
inductive LastError where
  | serverError (statusCode : Nat)
  | networkTimeout
  | generic (msg : Str)
deriving Repr, DecidableEq

/-- `error.message` of the stored `lastError` (`ServerError` constructor
at source line 112, timeout at line 152). -/
def LastError.message : LastError → Str
  | .serverError c => "Server error: ".toList ++ (toString c).toList
  | .networkTimeout => "Request timeout".toList
  | .generic msg => msg

/-- A thrown `NetworkError` (source lines 42-51): message, optional status
code, retryable flag. -/
inductive TransportError where
  | network (msg : Str) (statusCode : Option Nat) (retryable : Bool)
deriving Repr, DecidableEq

/-- The CORS failure message (source line 155). -/
def corsMessage : Str :=
  ("Network error - this may be a CORS issue if connecting to a GHES " ++
    "instance. Ensure the server allows cross-origin requests from this " ++
    "domain.").toList

/-- The message of the closing throw of `fetchWithRetry` (line 173). -/
def finalMessage (retries : Nat) (le : Option LastError) : Str :=
  "Request failed after ".toList ++ (toString retries).toList ++
    " attempts: ".toList ++
    (match le with
      | some e => e.message
      | none => "Unknown error".toList)

instance {ε α : Type} [DecidableEq ε] [DecidableEq α] : DecidableEq (Except ε α)
  | .ok a, .ok b =>
    if h : a = b then isTrue (by rw [h]) else isFalse (by simp [h])
  | .ok _, .error _ => isFalse (by simp)
  | .error _, .ok _ => isFalse (by simp)
  | .error a, .error b =>
    if h : a = b then isTrue (by rw [h]) else isFalse (by simp [h])

/-- Result of `fetchWithRetry` together with the backoff delays slept
(in milliseconds, one entry per `await sleep(delay)`). -/
structure RetryTrace where
  result : Except TransportError Resp
  delays : List Nat
deriving Repr, DecidableEq

/-- The fixed backoff schedule (source line 103). -/
def RETRY_DELAYS : List Nat := [1000, 2000, 4000, 8000, 15000]

/-- The attempt loop of `fetchWithRetry` (source lines 126-176), with fuel
`retries - attempt`.  `oracle` gives the outcome of each attempt.  A 5xx
response on a non-final attempt stores a `ServerError` and sleeps
`RETRY_DELAYS[attempt] || 15000`; on the final attempt the 5xx response is
returned (the `return response` at line 149 runs because the inner
`attempt < retries - 1` guard fails).  A CORS-style `TypeError` is thrown
at once; other exceptions store `lastError` and (after a sleep unless
final) continue; when the loop exhausts after an exception the closing
`NetworkError` is thrown, carrying `lastError.statusCode` only when
`lastError` is a `ServerError` — which the 5xx path never leaves in place
at loop exit. -/
def fetchWithRetryGo (oracle : Nat → AttemptOutcome) (retries : Nat) :
    Nat → Nat → Option LastError → List Nat → RetryTrace
  | 0, _, lastError, delays =>
    { result := .error (.network (finalMessage retries lastError)
        (match lastError with
          | some (.serverError c) => some c
          | _ => none) true)
      delays := delays }
  | fuel + 1, attempt, _, delays =>
    match oracle attempt with
    | .success r =>
      if r.status ≥ 500 then
        if attempt < retries - 1 then
          fetchWithRetryGo oracle retries fuel (attempt + 1)
            (some (.serverError r.status))
            (delays ++ [RETRY_DELAYS.getD attempt 15000])
        else { result := .ok r, delays := delays }
      else { result := .ok r, delays := delays }
    | .failure f =>
      match f with
      | .corsTypeError _ =>
        { result := .error (.network corsMessage none false), delays := delays }
      | .abortError =>
        if attempt < retries - 1 then
          fetchWithRetryGo oracle retries fuel (attempt + 1)
            (some .networkTimeout) (delays ++ [RETRY_DELAYS.getD attempt 15000])
        else
          fetchWithRetryGo oracle retries fuel (attempt + 1)
            (some .networkTimeout) delays
      | .otherError msg =>
        if attempt < retries - 1 then
          fetchWithRetryGo oracle retries fuel (attempt + 1)
            (some (.generic msg)) (delays ++ [RETRY_DELAYS.getD attempt 15000])
        else
          fetchWithRetryGo oracle retries fuel (attempt + 1)
            (some (.generic msg)) delays

/-- `fetchWithRetry` (source lines 118-177) with `retries` attempts. -/
def fetchWithRetry (oracle : Nat → AttemptOutcome) (retries : Nat) : RetryTrace :=
  fetchWithRetryGo oracle retries retries 0 none []

/-- A git tree entry (source lines 53-57). -/
structure TreeItem where
  path : Str
  type : Str
  sha : Str
deriving Repr, DecidableEq

/-- Outcome of the recursive tree fetch for a repository: a response with
the item list (`treeData.tree || []`), a non-2xx response (`!ok`), or a
thrown error (rate-limit exhaustion, CORS failure, retry exhaustion). -/
inductive TreeOutcome where
  | ok (items : List TreeItem)
  | notOk
  | thrown (e : ScanError)
deriving Repr, DecidableEq

/-- Outcome of fetching one candidate file's raw content. -/
inductive ContentOutcome where
  | ok (body : Str)
  | notOk
  | thrown (e : ScanError)
deriving Repr, DecidableEq

/-- The candidate filter (source lines 342-344): blobs whose path ends in
`.lfsconfig`. -/
def isLfsConfigBlob (it : TreeItem) : Bool :=
  it.type == "blob".toList && decide (".lfsconfig".toList <:+ it.path)

/-- The per-line body of the scan loop (source lines 372-379): a line that
contains the marker and whose trimmed form is not yet recorded appends its
trimmed form to the matched-line list and, if absent, the file path to the
file-path list. -/
def scanLine (path : Str) (acc : List Str × List Str) (line : Str) :
    List Str × List Str :=
  if containsMarker line && !(acc.1.contains (trimStr line)) then
    (acc.1 ++ [trimStr line],
     if acc.2.contains path then acc.2 else acc.2 ++ [path])
  else acc

/-- Scanning one file's content (source lines 370-380): guarded by a
whole-content marker test, then line by line over `content.split('\n')`. -/
def scanFileContent (path content : Str) (acc : List Str × List Str) :
    List Str × List Str :=
  if containsMarker content then (splitLines content).foldl (scanLine path) acc
  else acc

/-- Accumulating the matched lines and file paths over a file list. -/
def scanFiles (files : List (Str × Str)) (acc : List Str × List Str) :
    List Str × List Str :=
  files.foldl (fun a pc => scanFileContent pc.1 pc.2 a) acc

/-- The sequential per-file fetch loop of `checkRepoForJfrog` (source lines
353-381): a non-ok content response is skipped (`continue`), a thrown
error propagates, an ok body is scanned. -/
def checkFilesGo (contents : Str → ContentOutcome) :
    List TreeItem → List Str × List Str →
      Except ScanError (List Str × List Str)
  | [], acc => .ok acc
  | it :: rest, acc =>
    match contents it.path with
    | .thrown e => .error e
    | .notOk => checkFilesGo contents rest acc
    | .ok body => checkFilesGo contents rest (scanFileContent it.path body acc)

/-- `{ ...repo, hasJfrog: false, jfrogUrls: [], configLocations: [] }`
(source lines 338 and 347). -/
def noMatchResult (repo : Repository) : Repository :=
  { repo with hasJfrog := some false, jfrogUrls := [], configLocations := [] }

/-- `checkRepoForJfrog` (source lines 306-389), with the tree fetch and
content fetch outcomes supplied by oracles. -/
def checkRepoForJfrog (repo : Repository) (tree : TreeOutcome)
    (contents : Str → ContentOutcome) : Except ScanError Repository :=
  match tree with
  | .thrown e => .error e
  | .notOk => .ok (noMatchResult repo)
  | .ok items =>
    let files := items.filter isLfsConfigBlob
    if files.isEmpty then .ok (noMatchResult repo)
    else
      match checkFilesGo contents files ([], []) with
      | .error e => .error e
      | .ok acc =>
        .ok { repo with
                hasJfrog := some (!acc.1.isEmpty)
                jfrogUrls := acc.1
                configLocations := acc.2 }

/-- The candidate files whose content fetch returned a body, with their
bodies, in scan order. -/
def okFiles (contents : Str → ContentOutcome) (files : List TreeItem) :
    List (Str × Str) :=
  files.filterMap (fun it =>
    match contents it.path with
    | .ok body => some (it.path, body)
    | _ => none)

/-- Tree used by the C5 counterexample: two `.lfsconfig` blobs. -/
def exTreeC5 : List TreeItem :=
  [{ path := "a/.lfsconfig".toList, type := "blob".toList, sha := "s1".toList },
   { path := "b/.lfsconfig".toList, type := "blob".toList, sha := "s2".toList }]

/-- Contents oracle of the C5 counterexample: each candidate file holds the
same single marker line. -/
def exContentsC5 : Str → ContentOutcome :=
  fun _ => ContentOutcome.ok "url = jfrog".toList

/-- A raw repository entry as served by a page of
`GET /orgs/{org}/repos` (the fields read at source lines 278-290). -/
structure RawRepo where
  id : Nat
  name : Str
  full_name : Str
  html_url : Option Str
  description : Option Str
  size : Nat
  default_branch : Str
  pushed_at : Str
deriving Repr, DecidableEq

/-- The mapping at source lines 278-290: the match flag is initialised to
unknown and the web URL falls back to `webBase/full_name` when the served
`html_url` is absent or empty (JavaScript `||`). -/
def mapRawRepo (webBase : Str) (r : RawRepo) : Repository :=
  { id := r.id
    name := r.name
    full_name := r.full_name
    html_url :=
      match r.html_url with
      | some u => if u.isEmpty then webBase ++ "/".toList ++ r.full_name else u
      | none => webBase ++ "/".toList ++ r.full_name
    description := r.description
    size := r.size
    default_branch := r.default_branch
    pushed_at := r.pushed_at
    hasJfrog := none
    jfrogUrls := []
    configLocations := [] }

/-- The pagination loop of `fetchOrgRepos` (source lines 253-301), with
fuel bounding the model's `while (hasMore)` loop.  `pages` is the oracle
serving each page; the returned pair is the accumulated repository list and
the list of page numbers requested, in request order.  An empty page, or a
page shorter than 100 entries, ends the loop. -/
def fetchOrgReposGo (pages : Nat → List RawRepo) (webBase : Str) :
    Nat → Nat → List Repository → List Nat →
      Option (List Repository × List Nat)
  | 0, _, _, _ => none
  | fuel + 1, page, acc, visited =>
    let repos := pages page
    if repos.length = 0 then some (acc, visited ++ [page])
    else
      let acc' := acc ++ repos.map (mapRawRepo webBase)
      if repos.length < 100 then some (acc', visited ++ [page])
      else fetchOrgReposGo pages webBase fuel (page + 1) acc' (visited ++ [page])

/-- `fetchOrgRepos` (source lines 221-304): a non-empty existing repository
list short-circuits the network entirely; otherwise pagination starts at
page 1 with `per_page=100`. -/
def fetchOrgRepos (pages : Nat → List RawRepo) (webBase : Str)
    (existingRepos : Option (List Repository)) (fuel : Nat) :
    Option (List Repository × List Nat) :=
  match existingRepos with
  | some ex =>
    if ex.length > 0 then some (ex, [])
    else fetchOrgReposGo pages webBase fuel 1 [] []
  | none => fetchOrgReposGo pages webBase fuel 1 [] []

/-- A raw repository served by the C8 witness pages. -/
def exRawRepo : RawRepo :=
  { id := 7, name := "gamma".toList, full_name := "acme/gamma".toList
    html_url := some "https://github.com/acme/gamma".toList
    description := none, size := 1, default_branch := "main".toList
    pushed_at := "2024-02-01T00:00:00Z".toList }

/-- Pages oracle for the C8 witness: one full page then one short page. -/
def exPages : Nat → List RawRepo :=
  fun p => if p = 1 then List.replicate 100 exRawRepo
    else if p = 2 then [exRawRepo] else []

/-- JSON documents, as produced by `JSON.parse` / consumed by
`JSON.stringify` (numbers restricted to the integers this application
serializes). -/
inductive Json where
  | null
  | bool (b : Bool)
  | num (n : Int)
  | str (s : Str)
  | arr (elems : List Json)
  | obj (fields : List (Str × Json))
deriving Repr

/-- JavaScript property access `state[key]`: `none` models `undefined`
(missing key or non-object receiver). -/
def Json.getField : Json → Str → Option Json
  | .obj fields, key => (fields.find? (fun f => f.1 == key)).map (fun f => f.2)
  | _, _ => none

/-- `typeof x === 'string'`. -/
def Json.isStr : Json → Bool
  | .str _ => true
  | _ => false

/-- `Array.isArray(x)`. -/
def Json.isArr : Json → Bool
  | .arr _ => true
  | _ => false

/-- The structural validation of `parseScanState` (source lines 553-559):
organization name textual and the four collection fields present as
arrays. -/
def validScanStateJson (v : Json) : Bool :=
  (v.getField "orgName".toList).any Json.isStr &&
  (v.getField "allRepos".toList).any Json.isArr &&
  (v.getField "scannedRepoIds".toList).any Json.isArr &&
  (v.getField "pendingRepoIds".toList).any Json.isArr &&
  (v.getField "jfrogRepos".toList).any Json.isArr

/-- `parseScanState` (source lines 550-566).  The argument is the outcome
of `JSON.parse` (`none` when parsing threw, caught by the source's
`try`/`catch`); the parsed document is returned unchanged when the
structural checks pass, else the result is `null`.  Total: no input makes
it throw. -/
def parseScanState (doc : Option Json) : Option Json :=
  match doc with
  | none => none
  | some v => if validScanStateJson v then some v else none

/-- `JSON.stringify` of a nullable string field. -/
def Json.ofOptStr : Option Str → Json
  | none => .null
  | some s => .str s

/-- `JSON.stringify` of the nullable boolean match flag. -/
def Json.ofOptBool : Option Bool → Json
  | none => .null
  | some b => .bool b

/-- `JSON.stringify` of a `Repository` value (interface field order,
source lines 1-13). -/
def Repository.toJson (r : Repository) : Json :=
  .obj [("id".toList, .num (Int.ofNat r.id)),
        ("name".toList, .str r.name),
        ("full_name".toList, .str r.full_name),
        ("html_url".toList, .str r.html_url),
        ("description".toList, Json.ofOptStr r.description),
        ("size".toList, .num (Int.ofNat r.size)),
        ("default_branch".toList, .str r.default_branch),
        ("pushed_at".toList, .str r.pushed_at),
        ("hasJfrog".toList, Json.ofOptBool r.hasJfrog),
        ("jfrogUrls".toList, .arr (r.jfrogUrls.map Json.str)),
        ("configLocations".toList, .arr (r.configLocations.map Json.str))]

/-- `JSON.stringify(scanState)` (source line 538): all fields in interface
order; the optional `lastError` and `ghesHost` fields are omitted when
`undefined`, as `JSON.stringify` does. -/
def ScanState.toJson (s : ScanState) : Json :=
  .obj ([("orgName".toList, Json.str s.orgName),
         ("createdAt".toList, Json.str s.createdAt),
         ("allRepos".toList, Json.arr (s.allRepos.map Repository.toJson)),
         ("scannedRepoIds".toList,
          Json.arr (s.scannedRepoIds.map (fun i => Json.num (Int.ofNat i)))),
         ("pendingRepoIds".toList,
          Json.arr (s.pendingRepoIds.map (fun i => Json.num (Int.ofNat i)))),
         ("jfrogRepos".toList, Json.arr (s.jfrogRepos.map Repository.toJson))] ++
    (match s.lastError with
      | none => []
      | some e => [("lastError".toList, Json.str e)]) ++
    [("isComplete".toList, Json.bool s.isComplete)] ++
    (match s.ghesHost with
      | none => []
      | some h => [("ghesHost".toList, Json.str h)]))

def Json.asStr : Json → Option Str
  | .str s => some s
  | _ => none

/-- Non-negative integers back to `Nat`. -/
def intToNatOpt : Int → Option Nat
  | .ofNat n => some n
  | .negSucc _ => none

def Json.asNat : Json → Option Nat
  | .num n => intToNatOpt n
  | _ => none

def Json.asOptStr : Json → Option (Option Str)
  | .null => some none
  | .str s => some (some s)
  | _ => none

def Json.asOptBool : Json → Option (Option Bool)
  | .null => some none
  | .bool b => some (some b)
  | _ => none

def Json.asBool : Json → Option Bool
  | .bool b => some b
  | _ => none

def Json.asStrList : Json → Option (List Str)
  | .arr xs => xs.mapM Json.asStr
  | _ => none

def Json.asNatList : Json → Option (List Nat)
  | .arr xs => xs.mapM Json.asNat
  | _ => none

/-- Reading a `Repository` off its serialized form; used to state that the
serialized checkpoint determines every field. -/
def decodeRepository (v : Json) : Option Repository := do
  let id ← (v.getField "id".toList).bind Json.asNat
  let name ← (v.getField "name".toList).bind Json.asStr
  let full_name ← (v.getField "full_name".toList).bind Json.asStr
  let html_url ← (v.getField "html_url".toList).bind Json.asStr
  let description ← (v.getField "description".toList).bind Json.asOptStr
  let size ← (v.getField "size".toList).bind Json.asNat
  let default_branch ← (v.getField "default_branch".toList).bind Json.asStr
  let pushed_at ← (v.getField "pushed_at".toList).bind Json.asStr
  let hasJfrog ← (v.getField "hasJfrog".toList).bind Json.asOptBool
  let jfrogUrls ← (v.getField "jfrogUrls".toList).bind Json.asStrList
  let configLocations ← (v.getField "configLocations".toList).bind Json.asStrList
  pure { id := id, name := name, full_name := full_name, html_url := html_url
         description := description, size := size
         default_branch := default_branch, pushed_at := pushed_at
         hasJfrog := hasJfrog, jfrogUrls := jfrogUrls
         configLocations := configLocations }

def Json.asRepoList : Json → Option (List Repository)
  | .arr xs => xs.mapM decodeRepository
  | _ => none

/-- Reading a `ScanState` off its serialized form. -/
def decodeScanState (v : Json) : Option ScanState := do
  let orgName ← (v.getField "orgName".toList).bind Json.asStr
  let createdAt ← (v.getField "createdAt".toList).bind Json.asStr
  let allRepos ← (v.getField "allRepos".toList).bind Json.asRepoList
  let scannedRepoIds ← (v.getField "scannedRepoIds".toList).bind Json.asNatList
  let pendingRepoIds ← (v.getField "pendingRepoIds".toList).bind Json.asNatList
  let jfrogRepos ← (v.getField "jfrogRepos".toList).bind Json.asRepoList
  let lastError ← match v.getField "lastError".toList with
    | none => some none
    | some j => (Json.asStr j).map some
  let isComplete ← (v.getField "isComplete".toList).bind Json.asBool
  let ghesHost ← match v.getField "ghesHost".toList with
    | none => some none
    | some j => (Json.asStr j).map some
  pure { orgName := orgName, createdAt := createdAt, allRepos := allRepos
         scannedRepoIds := scannedRepoIds, pendingRepoIds := pendingRepoIds
         jfrogRepos := jfrogRepos, lastError := lastError
         isComplete := isComplete, ghesHost := ghesHost }

/-- A concrete Scan State exercising both optional fields for the C7
witness. -/
def exState1 : ScanState :=
  { orgName := "acme".toList, createdAt := "t0".toList
    allRepos := [exRepoA], scannedRepoIds := [1], pendingRepoIds := [2]
    jfrogRepos := [], lastError := some "e".toList, isComplete := false
    ghesHost := some "ghe.example.com".toList }

/-- The integer entries of an id-collection field of a parsed document. -/
def scanStateJsonIds (v : Json) (k : Str) : List Int :=
  match v.getField k with
  | some (.arr xs) => xs.filterMap (fun j =>
      match j with
      | .num n => some n
      | _ => none)
  | _ => []

/-- A structurally valid document whose scanned and pending id sets
overlap. -/
def exOverlapJson : Json :=
  Json.obj [("orgName".toList, Json.str "acme".toList),
            ("allRepos".toList, Json.arr []),
            ("scannedRepoIds".toList, Json.arr [Json.num 1]),
            ("pendingRepoIds".toList, Json.arr [Json.num 1]),
            ("jfrogRepos".toList, Json.arr [])]

/-- Structural specification of `splitLines`: the first line is a prefix of
the string and every later line is an infix of it. -/
theorem splitLines_spec (s : Str) :
    ∃ l0 ls, splitLines s = l0 :: ls ∧ l0 <+: s ∧ ∀ l ∈ ls, l <:+: s := by
  induction s with
  | nil => exact ⟨[], [], rfl, List.nil_prefix, by simp⟩
  | cons c rest ih =>
    obtain ⟨l0, ls, hsplit, hpre, hinf⟩ := ih
    by_cases hc : c = '\n'
    · refine ⟨[], splitLines rest, by simp [splitLines, hc], List.nil_prefix, ?_⟩
      intro l hl
      rw [hsplit] at hl
      have hrest : l <:+: rest := by
        rcases List.mem_cons.mp hl with h' | h'
        · exact h' ▸ hpre.isInfix
        · exact hinf l h'
      exact hrest.trans (List.suffix_cons c rest).isInfix
    · refine ⟨c :: l0, ls, by simp [splitLines, hc, hsplit], ?_, ?_⟩
      · obtain ⟨t, ht⟩ := hpre
        exact ⟨t, by simp [← ht]⟩
      · intro l hl
        exact (hinf l hl).trans (List.suffix_cons c rest).isInfix

/-- Every line produced by `splitLines` is a contiguous substring of the input. -/
theorem splitLines_infix {s l : Str} (hl : l ∈ splitLines s) : l <:+: s := by
  obtain ⟨l0, ls, hsplit, hpre, hinf⟩ := splitLines_spec s
  rw [hsplit] at hl
  rcases List.mem_cons.mp hl with h' | h'
  · exact h' ▸ hpre.isInfix
  · exact hinf l h'

/-- If some line of a string contains the marker (case-insensitively), so does
the whole string: the guard `content.toLowerCase().includes('jfrog')` at
source line 370 never hides a matching line. -/
theorem containsMarker_of_line {c line : Str} (hline : line ∈ splitLines c)
    (hm : containsMarker line = true) : containsMarker c = true := by
  have hinf : line <:+: c := splitLines_infix hline
  have hlow : lowerStr line <:+: lowerStr c := hinf.map Char.toLower
  have hmark : markerStr <:+: lowerStr line := by
    simpa [containsMarker] using hm
  simpa [containsMarker] using hmark.trans hlow

theorem commitResult_inv {s : ScanState} {r : Repository}
    (hinv : ScanInv s) (hp : r.id ∈ s.pendingRepoIds) :
    ScanInv (commitResult s r) := by
  obtain ⟨h1, h2, h3, h4, h5, h6, h7⟩ := hinv
  refine ⟨?_, ?_, ?_, ?_, ?_, ?_, ?_⟩
  · intro i hi
    rcases List.mem_append.mp hi with hi | hi
    · exact h1 i hi
    · simp only [List.mem_singleton] at hi
      exact hi ▸ h2 _ hp
  · intro i hi
    exact h2 i (List.mem_of_mem_filter hi)
  · intro i hi
    rcases h3 i hi with hs | hpd
    · exact Or.inl (List.mem_append_left _ hs)
    · by_cases hir : i = r.id
      · exact Or.inl (List.mem_append_right _ (by simp [hir]))
      · exact Or.inr (List.mem_filter.mpr ⟨hpd, by simp [hir]⟩)
  · intro i hi hmem
    have hip : i ∈ s.pendingRepoIds ∧ i ≠ r.id := by
      have := List.mem_filter.mp hmem
      exact ⟨this.1, by simpa using this.2⟩
    rcases List.mem_append.mp hi with hi | hi
    · exact h4 i hi hip.1
    · simp only [List.mem_singleton] at hi
      exact hip.2 hi
  · show (s.scannedRepoIds ++ [r.id]).Nodup
    rw [List.nodup_append]
    refine ⟨h5, List.nodup_singleton _, ?_⟩
    intro a ha hb
    simp only [List.mem_singleton] at hb
    exact h4 a ha (hb ▸ hp)
  · intro x hx
    simp only [commitResult] at hx ⊢
    by_cases hj : r.hasJfrog = some true
    · simp only [hj, if_pos rfl] at hx
      rcases List.mem_append.mp hx with hx | hx
      · exact List.mem_append_left _ (h6 x hx)
      · simp only [List.mem_singleton] at hx
        exact List.mem_append_right _ (by simp [hx])
    · rw [if_neg hj] at hx
      exact List.mem_append_left _ (h6 x hx)
  · intro hc
    exact absurd ((h7 hc) ▸ hp) (List.not_mem_nil _)

theorem mem_pendingRepoIds_commitBatch {results : List Repository}
    {s : ScanState} {i : Nat} :
    i ∈ (commitBatch s results).pendingRepoIds ↔
      i ∈ s.pendingRepoIds ∧ ∀ r ∈ results, i ≠ r.id := by
  induction results generalizing s with
  | nil => simp [commitBatch]
  | cons r rs ih =>
    simp only [commitBatch, List.foldl_cons] at *
    rw [ih]
    simp only [commitResult, List.mem_filter]
    constructor
    · rintro ⟨⟨hmem, hne⟩, hall⟩
      refine ⟨hmem, ?_⟩
      intro x hx
      rcases List.mem_cons.mp hx with hx | hx
      · subst hx; simpa using hne
      · exact hall x hx
    · rintro ⟨hmem, hall⟩
      exact ⟨⟨hmem, by simpa using hall r (List.mem_cons_self r rs)⟩,
        fun x hx => hall x (List.mem_cons_of_mem _ hx)⟩

theorem commitBatch_inv {results : List Repository} {s : ScanState}
    (hinv : ScanInv s)
    (hmem : ∀ r ∈ results, r.id ∈ s.pendingRepoIds)
    (hnodup : (results.map (fun r => r.id)).Nodup) :
    ScanInv (commitBatch s results) := by
  induction results generalizing s with
  | nil => exact hinv
  | cons r rs ih =>
    simp only [commitBatch, List.foldl_cons]
    simp only [List.map_cons, List.nodup_cons] at hnodup
    apply ih (commitResult_inv hinv (hmem r (List.mem_cons_self r rs)))
    · intro r' hr'
      have hne : r'.id ≠ r.id := by
        intro h
        exact hnodup.1 (h ▸ List.mem_map_of_mem (fun x => x.id) hr')
      show r'.id ∈ (commitResult s r).pendingRepoIds
      exact List.mem_filter.mpr
        ⟨hmem r' (List.mem_cons_of_mem _ hr'), by simp [hne]⟩
    · exact hnodup.2

theorem batchCheckAll_ok_ids {check : Repository → Except ScanError Repository}
    (hid : ∀ r r', check r = .ok r' → r'.id = r.id) :
    ∀ {batch results : List Repository},
      batchCheckAll check batch = .ok results →
      results.map (fun r => r.id) = batch.map (fun r => r.id) := by
  intro batch
  induction batch with
  | nil =>
    intro results h
    simp only [batchCheckAll, List.mapM_nil, pure, Except.pure] at h
    cases h
    rfl
  | cons b bs ih =>
    intro results h
    simp only [batchCheckAll, List.mapM_cons] at h
    cases hcb : check b with
    | error e => rw [hcb] at h; simp [Bind.bind, Except.bind] at h
    | ok r' =>
      rw [hcb] at h
      cases hbs : bs.mapM check with
      | error e =>
        rw [hbs] at h; simp [Bind.bind, Except.bind, pure, Except.pure] at h
      | ok rs' =>
        rw [hbs] at h
        simp only [Bind.bind, Except.bind, pure, Except.pure] at h
        cases h
        simp only [List.map_cons]
        rw [hid b r' hcb, ih hbs]

theorem chunksOfGo_flatten {n : Nat} (hn : 0 < n) :
    ∀ (fuel : Nat) (l : List Repository), l.length ≤ fuel →
      (chunksOfGo n fuel l).flatten = l := by
  intro fuel
  induction fuel with
  | zero =>
    intro l hl
    have : l = [] := List.length_eq_zero.mp (Nat.le_zero.mp hl)
    subst this
    cases n <;> rfl
  | succ f ih =>
    intro l hl
    cases l with
    | nil => cases n <;> rfl
    | cons a as =>
      show ((a :: as).take n :: chunksOfGo n f ((a :: as).drop n)).flatten = a :: as
      have hlen : ((a :: as).drop n).length ≤ f := by
        simp only [List.length_drop, List.length_cons] at hl ⊢
        omega
      rw [List.flatten_cons, ih _ hlen, List.take_append_drop]

theorem chunksOf_flatten {n : Nat} (hn : 0 < n) (l : List Repository) :
    (chunksOf n l).flatten = l :=
  chunksOfGo_flatten hn l.length l le_rfl

theorem scanInv_finish {s : ScanState} (hinv : ScanInv s)
    (hpend : s.pendingRepoIds = []) : ScanInv (finishScan s) := by
  obtain ⟨h1, h2, h3, h4, h5, h6, h7⟩ := hinv
  refine ⟨h1, by simp [finishScan], ?_, by simp [finishScan], h5, h6, fun _ => rfl⟩
  intro i hi
  rcases h3 i hi with hs | hp
  · exact Or.inl hs
  · rw [hpend] at hp
    exact absurd hp (List.not_mem_nil i)

theorem runBatches_inv {check : Repository → Except ScanError Repository}
    (hid : ∀ r r', check r = .ok r' → r'.id = r.id)
    (shouldCancel : Nat → Bool) :
    ∀ (batches : List (List Repository)) (k : Nat) (s : ScanState),
      ScanInv s →
      (∀ r ∈ batches.flatten, r.id ∈ s.pendingRepoIds) →
      (batches.flatten.map (fun r => r.id)).Nodup →
      (∀ i ∈ s.pendingRepoIds, i ∈ batches.flatten.map (fun r => r.id)) →
      ScanInv (runBatches check shouldCancel batches k s).scanState := by
  intro batches
  induction batches with
  | nil =>
    intro k s hinv _ _ hcov
    have hpend : s.pendingRepoIds = [] := by
      cases hp : s.pendingRepoIds with
      | nil => rfl
      | cons i is =>
        have := hcov i (by rw [hp]; exact List.mem_cons_self i is)
        simp at this
    exact scanInv_finish hinv hpend
  | cons b rest ih =>
    intro k s hinv hmem hnodup hcov
    simp only [runBatches]
    by_cases hc : shouldCancel k = true
    · rw [if_pos hc]
      exact hinv
    · rw [if_neg hc]
      cases hball : batchCheckAll check b with
      | error e =>
        have hse : ScanInv { s with lastError := some e.message } := hinv
        cases e <;> exact hse
      | ok results =>
        simp only [List.flatten_cons, List.map_append, List.nodup_append] at hmem hnodup hcov
        have hids : results.map (fun r => r.id) = b.map (fun r => r.id) :=
          batchCheckAll_ok_ids hid hball
        have hmemres : ∀ r ∈ results, r.id ∈ s.pendingRepoIds := by
          intro r hr
          have : r.id ∈ results.map (fun r => r.id) := List.mem_map_of_mem _ hr
          rw [hids] at this
          obtain ⟨rb, hrb, hrbid⟩ := List.mem_map.mp this
          exact hrbid ▸ hmem rb (List.mem_append_left _ hrb)
        apply ih (k + 1) (commitBatch s results)
          (commitBatch_inv hinv hmemres (hids ▸ hnodup.1))
        · intro r hr
          rw [mem_pendingRepoIds_commitBatch]
          refine ⟨hmem r (List.mem_append_right _ hr), ?_⟩
          intro x hx hxr
          have hxb : r.id ∈ b.map (fun r => r.id) := by
            rw [← hids]
            exact hxr ▸ List.mem_map_of_mem _ hx
          exact hnodup.2.2 hxb (List.mem_map_of_mem _ hr)
        · exact hnodup.2.1
        · intro i hi
          rw [mem_pendingRepoIds_commitBatch] at hi
          rcases List.mem_append.mp (hcov i hi.1) with hib | hir
          · obtain ⟨rb, hrb, hrbid⟩ := List.mem_map.mp hib
            obtain ⟨rr, hrr, hrrid⟩ := List.mem_map.mp (hids ▸ hib)
            exact absurd hrrid.symm (hi.2 rr hrr)
          · exact hir

theorem scanInv_initial (repos : List Repository) (orgName createdAt : Str)
    (ghesHost : Option Str) :
    ScanInv (initialScanState repos orgName createdAt ghesHost) := by
  refine ⟨by simp [initialScanState], ?_, ?_, by simp [initialScanState],
    by simp [initialScanState], by simp [initialScanState],
    by simp [initialScanState]⟩
  · intro i hi
    simpa [initialScanState] using hi
  · intro i hi
    exact Or.inr (by simpa [initialScanState] using hi)

/-- C1: for every run of `checkAllReposForJfrog` — any per-repository check
outcomes, any cancellation pattern, any batch at which the run stops — the
`ScanState` it hands back satisfies the Scan State invariant: scanned and
pending ids are disjoint and together cover exactly the id set of all
repositories, no id appears twice in the scanned list, every matched
(`jfrogRepos`) entry has a scanned id, and `isComplete` implies the pending
set is empty.  Hypotheses: repository ids are unique, the check preserves
ids (as `checkRepoForJfrog` does), and a supplied existing state satisfies
the invariant for this repository list. -/
theorem checkAllReposForJfrog_invariant
    (repos : List Repository) (check : Repository → Except ScanError Repository)
    (shouldCancel : Nat → Bool) (existing : Option ScanState)
    (orgName createdAt : Str) (ghesHost : Option Str) (hasToken : Bool)
    (hnodup : (idsOf repos).Nodup)
    (hid : ∀ r r', check r = .ok r' → r'.id = r.id)
    (hex : ∀ s₀, existing = some s₀ → ScanInv s₀ ∧ s₀.allRepos = repos) :
    ScanInv ((checkAllReposForJfrog repos check shouldCancel existing
        orgName createdAt ghesHost hasToken).scanState) := by
  unfold checkAllReposForJfrog
  have hs : ScanInv (existing.getD (initialScanState repos orgName createdAt ghesHost)) ∧
      (∀ i ∈ (existing.getD (initialScanState repos orgName createdAt ghesHost)).pendingRepoIds,
        i ∈ idsOf repos) := by
    cases existing with
    | none =>
      refine ⟨scanInv_initial repos orgName createdAt ghesHost, ?_⟩
      intro i hi
      simpa [initialScanState] using hi
    | some s₀ =>
      obtain ⟨hinv, hall⟩ := hex s₀ rfl
      exact ⟨hinv, fun i hi => hall ▸ hinv.2.1 i hi⟩
  have hconc : 0 < (if hasToken then 5 else 2) := by
    cases hasToken <;> simp
  refine runBatches_inv hid shouldCancel _ 0 _ hs.1 ?_ ?_ ?_
  · rw [chunksOf_flatten hconc]
    intro r hr
    simp only [pendingReposOf, List.mem_filter] at hr
    simpa using hr.2
  · rw [chunksOf_flatten hconc]
    apply List.Nodup.sublist _ hnodup
    exact List.Sublist.map _ (List.filter_sublist _)
  · rw [chunksOf_flatten hconc]
    intro i hi
    have hids : i ∈ idsOf repos := hs.2 i hi
    obtain ⟨r, hr, hrid⟩ := List.mem_map.mp hids
    refine List.mem_map.mpr ⟨r, ?_, hrid⟩
    simp only [pendingReposOf, List.mem_filter]
    exact ⟨hr, by simp [hrid, hi]⟩

/-- Witness for C1: a concrete two-repository scan that completes; the
returned state satisfies the Scan State invariant. -/
theorem checkAllReposForJfrog_invariant_witness :
    ScanInv ((checkAllReposForJfrog [exRepoA, exRepoB] (fun r => Except.ok r)
        (fun _ => false) none "acme".toList "t0".toList none true).scanState) :=
  checkAllReposForJfrog_invariant [exRepoA, exRepoB] (fun r => Except.ok r)
    (fun _ => false) none "acme".toList "t0".toList none true
    (by decide)
    (fun r r' h => by cases Except.ok.inj h; rfl)
    (fun s₀ h => Option.noConfusion h)

theorem runBatches_ok_step {check : Repository → Except ScanError Repository}
    {shouldCancel : Nat → Bool} {batch : List Repository}
    {rest : List (List Repository)} {k : Nat} {s : ScanState}
    {rs : List Repository}
    (hc : shouldCancel k = false) (hok : batchCheckAll check batch = .ok rs) :
    runBatches check shouldCancel (batch :: rest) k s =
      runBatches check shouldCancel rest (k + 1) (commitBatch s rs) := by
  simp [runBatches, hc, hok]

theorem runBatches_error_exit {check : Repository → Except ScanError Repository}
    {shouldCancel : Nat → Bool} (hcfalse : ∀ m, shouldCancel m = false) :
    ∀ (j : Nat) (batches : List (List Repository)) (k : Nat) (s : ScanState)
      (e : ScanError) (results : Nat → List Repository),
      (∀ m, m < j → batchCheckAll check (batches.getD m []) = .ok (results m)) →
      j < batches.length →
      batchCheckAll check (batches.getD j []) = .error e →
      (runBatches check shouldCancel batches k s).isPartial = true ∧
      (runBatches check shouldCancel batches k s).scanState.scannedRepoIds =
        (((List.range j).map results).foldl commitBatch s).scannedRepoIds ∧
      (runBatches check shouldCancel batches k s).scanState.pendingRepoIds =
        (((List.range j).map results).foldl commitBatch s).pendingRepoIds ∧
      (runBatches check shouldCancel batches k s).scanState.jfrogRepos =
        (((List.range j).map results).foldl commitBatch s).jfrogRepos := by
  intro j
  induction j with
  | zero =>
    intro batches k s e results hpre hj hfail
    cases batches with
    | nil => simp at hj
    | cons b rest =>
      rw [List.getD_cons_zero] at hfail
      cases e <;> simp [runBatches, hcfalse k, hfail]
  | succ n ih =>
    intro batches k s e results hpre hj hfail
    cases batches with
    | nil => simp at hj
    | cons b rest =>
      have h0 : batchCheckAll check b = .ok (results 0) := by
        have := hpre 0 (Nat.succ_pos n)
        rwa [List.getD_cons_zero] at this
      rw [runBatches_ok_step (hcfalse k) h0]
      have hfold : ((List.range (n + 1)).map results).foldl commitBatch s =
          ((List.range n).map (fun m => results (m + 1))).foldl commitBatch
            (commitBatch s (results 0)) := by
        rw [List.range_succ_eq_map]
        simp only [List.map_cons, List.map_map, List.foldl_cons]
        rfl
      rw [hfold]
      refine ih rest (k + 1) (commitBatch s (results 0)) e
        (fun m => results (m + 1)) ?_ ?_ ?_
      · intro m hm
        have := hpre (m + 1) (Nat.succ_lt_succ hm)
        rwa [List.getD_cons_succ] at this
      · exact Nat.lt_of_succ_lt_succ hj
      · rwa [List.getD_cons_succ] at hfail

/-- C2: batches commit atomically in the batch loop of
`checkAllReposForJfrog`.  First part: when a batch succeeds (and the run is
not cancelled at that point), every member of the batch is folded into the
state before the next batch starts.  Second part: when batch `j` is the
first failing batch, the run returns a partial result whose state carries
exactly the scanned ids, pending ids and matched repositories of the state
after the last fully committed batch — nothing from the failing batch is
applied. -/
theorem checkAllReposForJfrog_batch_atomic
    (check : Repository → Except ScanError Repository)
    (shouldCancel : Nat → Bool) :
    (∀ (batch : List Repository) (rest : List (List Repository)) (k : Nat)
        (s : ScanState) (rs : List Repository),
      shouldCancel k = false → batchCheckAll check batch = .ok rs →
      runBatches check shouldCancel (batch :: rest) k s =
        runBatches check shouldCancel rest (k + 1) (commitBatch s rs)) ∧
    (∀ (batches : List (List Repository)) (k : Nat) (s : ScanState)
        (j : Nat) (e : ScanError) (results : Nat → List Repository),
      (∀ m, shouldCancel m = false) →
      (∀ m, m < j → batchCheckAll check (batches.getD m []) = .ok (results m)) →
      j < batches.length →
      batchCheckAll check (batches.getD j []) = .error e →
      (runBatches check shouldCancel batches k s).isPartial = true ∧
      (runBatches check shouldCancel batches k s).scanState.scannedRepoIds =
        (((List.range j).map results).foldl commitBatch s).scannedRepoIds ∧
      (runBatches check shouldCancel batches k s).scanState.pendingRepoIds =
        (((List.range j).map results).foldl commitBatch s).pendingRepoIds ∧
      (runBatches check shouldCancel batches k s).scanState.jfrogRepos =
        (((List.range j).map results).foldl commitBatch s).jfrogRepos) := by
  constructor
  · intro batch rest k s rs hc hok
    exact runBatches_ok_step hc hok
  · intro batches k s j e results hcfalse hpre hj hfail
    exact runBatches_error_exit hcfalse j batches k s e results hpre hj hfail

/-- Witness for C2: with two singleton batches where the second fails, the
run is partial and its state has exactly the scanned/pending/matched data
of the state after the first (only committed) batch. -/
theorem checkAllReposForJfrog_batch_atomic_witness :
    (runBatches exCheckFail (fun _ => false) [[exRepoA], [exRepoB]] 0 exState0).isPartial = true ∧
    (runBatches exCheckFail (fun _ => false) [[exRepoA], [exRepoB]] 0 exState0).scanState.scannedRepoIds =
      (((List.range 1).map (fun _ => [exRepoA])).foldl commitBatch exState0).scannedRepoIds ∧
    (runBatches exCheckFail (fun _ => false) [[exRepoA], [exRepoB]] 0 exState0).scanState.pendingRepoIds =
      (((List.range 1).map (fun _ => [exRepoA])).foldl commitBatch exState0).pendingRepoIds ∧
    (runBatches exCheckFail (fun _ => false) [[exRepoA], [exRepoB]] 0 exState0).scanState.jfrogRepos =
      (((List.range 1).map (fun _ => [exRepoA])).foldl commitBatch exState0).jfrogRepos :=
  (checkAllReposForJfrog_batch_atomic exCheckFail (fun _ => false)).2
    [[exRepoA], [exRepoB]] 0 exState0 1 (ScanError.other "boom".toList)
    (fun _ => [exRepoA]) (fun _ => rfl)
    (by
      intro m hm
      have hm0 : m = 0 := by omega
      subst hm0
      rfl)
    (by decide)
    rfl

/-- C3: behaviour of `fetchWithTokenRotation`.  (i) On a 403 response with
parsed remaining quota 0 the current credential is added to the tried set,
and then: with more than one credential in the pool and the tried set
smaller than the pool the pool rotates and the same request is retried
with the same oracle; otherwise (all tried, or exactly one credential) a
rate-limit failure carrying the reset instant is raised.  (ii) Any other
response is returned with the tried set cleared.  (iii) Consequently, with
a pool headed by two credentials where only the first is exhausted, the
caller obtains the second credential's successful response and never
observes a rate-limit failure.  (iv) With no credential at all (the pool
is empty, so `getToken` is `null`), a 403 response with remaining quota 0
raises the rate-limit failure carrying the reset instant at once, without
touching the pool. -/
theorem fetchWithTokenRotation_rotation (respond : Option Str → Resp) :
    (∀ (fuel : Nat) (p : TokenPool) (t : Str),
      p.getToken = some t →
      (respond (some t)).status = 403 → (respond (some t)).remaining = 0 →
      t ∈ (p.addTried t).tried ∧
      ((p.addTried t).tokens.length > 1 ∧
          (p.addTried t).tried.length < (p.addTried t).tokens.length →
        fetchWithTokenRotation respond (fuel + 1) p =
          fetchWithTokenRotation respond fuel (p.addTried t).rotateToken) ∧
      (¬((p.addTried t).tokens.length > 1 ∧
          (p.addTried t).tried.length < (p.addTried t).tokens.length) →
        fetchWithTokenRotation respond (fuel + 1) p =
          .rateLimited (respond (some t)).reset (p.addTried t))) ∧
    (∀ (fuel : Nat) (p : TokenPool),
      ¬((respond p.getToken).status = 403 ∧ (respond p.getToken).remaining = 0) →
      fetchWithTokenRotation respond (fuel + 1) p =
        .ok (respond p.getToken) { p with tried := [] }) ∧
    (∀ (t₁ t₂ : Str) (rest : List Str),
      (respond (some t₁)).status = 403 → (respond (some t₁)).remaining = 0 →
      ¬((respond (some t₂)).status = 403 ∧ (respond (some t₂)).remaining = 0) →
      fetchWithTokenRotation respond 2 ⟨t₁ :: t₂ :: rest, 0, []⟩ =
        .ok (respond (some t₂)) ⟨t₁ :: t₂ :: rest, 1, []⟩) ∧
    (∀ (fuel : Nat) (p : TokenPool),
      p.getToken = none →
      (respond none).status = 403 → (respond none).remaining = 0 →
      fetchWithTokenRotation respond (fuel + 1) p =
        .rateLimited (respond none).reset p) := by
  refine ⟨?_, ?_, ?_, ?_⟩
  · intro fuel p t ht h403 hrem
    refine ⟨?_, ?_, ?_⟩
    · simp only [TokenPool.addTried]
      by_cases hmem : t ∈ p.tried
      · simp [hmem]
      · simp [hmem]
    · intro hcond
      simp only [fetchWithTokenRotation, ht]
      rw [if_pos ⟨h403, hrem⟩, if_pos hcond]
    · intro hcond
      simp only [fetchWithTokenRotation, ht]
      rw [if_pos ⟨h403, hrem⟩, if_neg hcond]
  · intro fuel p hne
    simp only [fetchWithTokenRotation]
    rw [if_neg hne]
  · intro t₁ t₂ rest h403 hrem hok
    have hget1 : (TokenPool.mk (t₁ :: t₂ :: rest) 0 []).getToken = some t₁ := by
      simp [TokenPool.getToken]
    simp only [fetchWithTokenRotation, hget1]
    rw [if_pos ⟨h403, hrem⟩]
    have htried : (TokenPool.mk (t₁ :: t₂ :: rest) 0 []).addTried t₁ =
        TokenPool.mk (t₁ :: t₂ :: rest) 0 [t₁] := by
      simp [TokenPool.addTried]
    rw [htried]
    have hcond : (TokenPool.mk (t₁ :: t₂ :: rest) 0 [t₁]).tokens.length > 1 ∧
        (TokenPool.mk (t₁ :: t₂ :: rest) 0 [t₁]).tried.length <
          (TokenPool.mk (t₁ :: t₂ :: rest) 0 [t₁]).tokens.length := by
      simp
    rw [if_pos hcond]
    have hrot : (TokenPool.mk (t₁ :: t₂ :: rest) 0 [t₁]).rotateToken =
        TokenPool.mk (t₁ :: t₂ :: rest) 1 [t₁] := by
      simp [TokenPool.rotateToken, Nat.mod_eq_of_lt]
    rw [hrot]
    have hget2 : (TokenPool.mk (t₁ :: t₂ :: rest) 1 [t₁]).getToken = some t₂ := by
      simp [TokenPool.getToken]
    simp only [fetchWithTokenRotation, hget2]
    rw [if_neg hok]
  · intro fuel p hnone h403 hrem
    have hemp : p.tokens = [] := by
      by_contra hne
      have hlt : p.index % p.tokens.length < p.tokens.length :=
        Nat.mod_lt _ (List.length_pos.mpr hne)
      rw [TokenPool.getToken, if_neg (by simpa using hne)] at hnone
      rw [List.getElem?_eq_getElem hlt] at hnone
      exact Option.noConfusion hnone
    simp only [fetchWithTokenRotation, hnone]
    rw [if_pos ⟨h403, hrem⟩, if_neg (by simp [hemp])]

/-- Witness for C3: with two concrete credentials of which the first is
exhausted, the request succeeds with the second credential and the tried
set is cleared; with no credential at all, a 403-with-remaining-0 response
raises the rate-limit failure carrying the reset instant. -/
theorem fetchWithTokenRotation_rotation_witness :
    (fetchWithTokenRotation
        (fun t => if t = some "tok1".toList then ⟨403, 0, 5000, 1700000000⟩
          else ⟨200, 42, 5000, 1700000000⟩) 2
        ⟨["tok1".toList, "tok2".toList], 0, []⟩ =
      .ok ⟨200, 42, 5000, 1700000000⟩ ⟨["tok1".toList, "tok2".toList], 1, []⟩) ∧
    (fetchWithTokenRotation (fun _ => ⟨403, 0, 60, 1700000000⟩) 1 ⟨[], 0, []⟩ =
      .rateLimited 1700000000 ⟨[], 0, []⟩) :=
  ⟨(fetchWithTokenRotation_rotation
      (fun t => if t = some "tok1".toList then ⟨403, 0, 5000, 1700000000⟩
        else ⟨200, 42, 5000, 1700000000⟩)).2.2.1
    "tok1".toList "tok2".toList [] (by decide) (by decide) (by decide),
   (fetchWithTokenRotation_rotation (fun _ => ⟨403, 0, 60, 1700000000⟩)).2.2.2
    0 ⟨[], 0, []⟩ rfl rfl rfl⟩

/-- C4 (evaluation at the failing input): when all 5 attempts yield a 5xx
response, the first 4 attempts are retried with the backoff schedule
1s, 2s, 4s, 8s — and, with a larger attempt budget, 15s thereafter — but on
exhaustion `fetchWithRetry` RETURNS the final 5xx response instead of
throwing an error carrying the status code: the closing throw (whose
`statusCode` field explicitly handles a stored `ServerError`) is
unreachable on the pure-5xx path, contradicting the claim. -/
theorem fetchWithRetry_5xx_exhaustion_returns_response :
    fetchWithRetry (fun _ => .success ⟨500, 0, 60, 0⟩) 5 =
      { result := .ok ⟨500, 0, 60, 0⟩, delays := [1000, 2000, 4000, 8000] } ∧
    fetchWithRetry (fun _ => .success ⟨503, 0, 60, 0⟩) 7 =
      { result := .ok ⟨503, 0, 60, 0⟩
        delays := [1000, 2000, 4000, 8000, 15000, 15000] } :=
  ⟨rfl, rfl⟩

/-- C6: a repository whose tree fetch completes with a non-ok response is
classified as "no match" (`hasJfrog = false`, empty matched-line and
file-path lists) and no error is propagated. -/
theorem checkRepoForJfrog_tree_failure_no_match (repo : Repository)
    (contents : Str → ContentOutcome) :
    checkRepoForJfrog repo TreeOutcome.notOk contents =
      .ok { repo with
              hasJfrog := some false
              jfrogUrls := []
              configLocations := [] } :=
  rfl

/-- C9: whenever `checkRepoForJfrog` returns a repository, all identity
fields (id, name, full_name, html_url, description, size, default_branch,
pushed_at) are those of the input repository; only the match flag and the
two evidence lists may differ.  (The input itself is immutable in this
functional embedding, matching the source's use of object spread.) -/
theorem checkRepoForJfrog_preserves_identity (repo : Repository)
    (tree : TreeOutcome) (contents : Str → ContentOutcome) (r : Repository)
    (h : checkRepoForJfrog repo tree contents = .ok r) :
    r.id = repo.id ∧ r.name = repo.name ∧ r.full_name = repo.full_name ∧
    r.html_url = repo.html_url ∧ r.description = repo.description ∧
    r.size = repo.size ∧ r.default_branch = repo.default_branch ∧
    r.pushed_at = repo.pushed_at := by
  cases tree with
  | thrown e => simp [checkRepoForJfrog] at h
  | notOk =>
    have hr : noMatchResult repo = r := Except.ok.inj h
    subst hr
    simp [noMatchResult]
  | ok items =>
    simp only [checkRepoForJfrog] at h
    split at h
    · have hr := Except.ok.inj h
      subst hr
      simp [noMatchResult]
    · split at h
      · exact absurd h (by simp)
      · have hr := Except.ok.inj h
        subst hr
        simp

/-- Witness for C9 at a concrete input: an empty tree yields the no-match
result, whose identity fields are those of the input repository. -/
theorem checkRepoForJfrog_preserves_identity_witness :
    (noMatchResult exRepoA).id = exRepoA.id ∧
    (noMatchResult exRepoA).name = exRepoA.name ∧
    (noMatchResult exRepoA).full_name = exRepoA.full_name ∧
    (noMatchResult exRepoA).html_url = exRepoA.html_url ∧
    (noMatchResult exRepoA).description = exRepoA.description ∧
    (noMatchResult exRepoA).size = exRepoA.size ∧
    (noMatchResult exRepoA).default_branch = exRepoA.default_branch ∧
    (noMatchResult exRepoA).pushed_at = exRepoA.pushed_at :=
  checkRepoForJfrog_preserves_identity exRepoA (.ok [])
    (fun _ => ContentOutcome.notOk) (noMatchResult exRepoA) rfl

theorem scanLine_foldl_spec (p : Str) :
    ∀ (lines : List Str) (acc : List Str × List Str),
      acc.1.Nodup → acc.2.Nodup →
      (lines.foldl (scanLine p) acc).1.Nodup ∧
      (lines.foldl (scanLine p) acc).2.Nodup ∧
      (∀ u ∈ (lines.foldl (scanLine p) acc).1, u ∈ acc.1 ∨
        ∃ line ∈ lines, containsMarker line = true ∧ trimStr line = u) ∧
      (∀ q ∈ (lines.foldl (scanLine p) acc).2, q ∈ acc.2 ∨
        (q = p ∧ ∃ line ∈ lines, containsMarker line = true)) ∧
      (∀ line ∈ lines, containsMarker line = true →
        trimStr line ∈ (lines.foldl (scanLine p) acc).1) ∧
      acc.1 <+: (lines.foldl (scanLine p) acc).1 ∧
      acc.2 <+: (lines.foldl (scanLine p) acc).2 := by
  intro lines
  induction lines with
  | nil =>
    intro acc h1 h2
    exact ⟨h1, h2, fun u hu => Or.inl hu, fun q hq => Or.inl hq,
      by simp, List.prefix_rfl, List.prefix_rfl⟩
  | cons line rest ih =>
    intro acc h1 h2
    simp only [List.foldl_cons]
    by_cases hcond : (containsMarker line && !(acc.1.contains (trimStr line))) = true
    · have hand := hcond
      rw [Bool.and_eq_true] at hand
      have hm : containsMarker line = true := hand.1
      have hnc : trimStr line ∉ acc.1 := by simpa using hand.2
      have hstep : scanLine p acc line =
          (acc.1 ++ [trimStr line],
           if acc.2.contains p then acc.2 else acc.2 ++ [p]) := by
        rw [scanLine, if_pos hcond]
      rw [hstep]
      have h1' : (acc.1 ++ [trimStr line]).Nodup := by
        rw [List.nodup_append]
        refine ⟨h1, List.nodup_singleton _, ?_⟩
        intro a ha hb
        simp only [List.mem_singleton] at hb
        exact hnc (hb ▸ ha)
      have h2' : (if acc.2.contains p then acc.2 else acc.2 ++ [p]).Nodup := by
        by_cases hp : acc.2.contains p = true
        · rwa [if_pos hp]
        · rw [if_neg hp, List.nodup_append]
          refine ⟨h2, List.nodup_singleton _, ?_⟩
          intro a ha hb
          simp only [List.mem_singleton] at hb
          subst hb
          simp at hp
          exact hp ha
      have hmem2 : ∀ q, q ∈ (if acc.2.contains p then acc.2 else acc.2 ++ [p]) →
          q ∈ acc.2 ∨ q = p := by
        intro q hq
        by_cases hp : acc.2.contains p = true
        · rw [if_pos hp] at hq; exact Or.inl hq
        · rw [if_neg hp] at hq
          rcases List.mem_append.mp hq with hq | hq
          · exact Or.inl hq
          · simp only [List.mem_singleton] at hq; exact Or.inr hq
      have hpre2 : acc.2 <+: (if acc.2.contains p then acc.2 else acc.2 ++ [p]) := by
        by_cases hp : acc.2.contains p = true
        · rw [if_pos hp]
        · rw [if_neg hp]; exact List.prefix_append _ _
      obtain ⟨g1, g2, g3, g4, g5, g6, g7⟩ :=
        ih (acc.1 ++ [trimStr line],
            if acc.2.contains p then acc.2 else acc.2 ++ [p]) h1' h2'
      refine ⟨g1, g2, ?_, ?_, ?_, ?_, ?_⟩
      · intro u hu
        rcases g3 u hu with hu' | ⟨l, hl, hml, htl⟩
        · rcases List.mem_append.mp hu' with hu'' | hu''
          · exact Or.inl hu''
          · simp only [List.mem_singleton] at hu''
            exact Or.inr ⟨line, List.mem_cons_self _ _, hm, hu''.symm⟩
        · exact Or.inr ⟨l, List.mem_cons_of_mem _ hl, hml, htl⟩
      · intro q hq
        rcases g4 q hq with hq' | ⟨hqp, l, hl, hml⟩
        · rcases hmem2 q hq' with hq'' | hq''
          · exact Or.inl hq''
          · exact Or.inr ⟨hq'', line, List.mem_cons_self _ _, hm⟩
        · exact Or.inr ⟨hqp, l, List.mem_cons_of_mem _ hl, hml⟩
      · intro l hl hml
        rcases List.mem_cons.mp hl with hl' | hl'
        · subst hl'
          exact g6.subset (List.mem_append_right _ (List.mem_singleton.mpr rfl))
        · exact g5 l hl' hml
      · exact (List.prefix_append _ _).trans g6
      · exact hpre2.trans g7
    · have hstep : scanLine p acc line = acc := by
        rw [scanLine, if_neg hcond]
      rw [hstep]
      obtain ⟨g1, g2, g3, g4, g5, g6, g7⟩ := ih acc h1 h2
      refine ⟨g1, g2, ?_, ?_, ?_, g6, g7⟩
      · intro u hu
        rcases g3 u hu with hu' | ⟨l, hl, hml, htl⟩
        · exact Or.inl hu'
        · exact Or.inr ⟨l, List.mem_cons_of_mem _ hl, hml, htl⟩
      · intro q hq
        rcases g4 q hq with hq' | ⟨hqp, l, hl, hml⟩
        · exact Or.inl hq'
        · exact Or.inr ⟨hqp, l, List.mem_cons_of_mem _ hl, hml⟩
      · intro l hl hml
        rcases List.mem_cons.mp hl with hl' | hl'
        · subst hl'
          have hc : trimStr l ∈ acc.1 := by
            by_contra hcc
            exact hcond (by simp [hml]; exact hcc)
          exact g6.subset hc
        · exact g5 l hl' hml

theorem scanFileContent_spec (p content : Str) (acc : List Str × List Str)
    (h1 : acc.1.Nodup) (h2 : acc.2.Nodup) :
    (scanFileContent p content acc).1.Nodup ∧
    (scanFileContent p content acc).2.Nodup ∧
    (∀ u ∈ (scanFileContent p content acc).1, u ∈ acc.1 ∨
      ∃ line ∈ splitLines content, containsMarker line = true ∧ trimStr line = u) ∧
    (∀ q ∈ (scanFileContent p content acc).2, q ∈ acc.2 ∨
      (q = p ∧ ∃ line ∈ splitLines content, containsMarker line = true)) ∧
    (∀ line ∈ splitLines content, containsMarker line = true →
      trimStr line ∈ (scanFileContent p content acc).1) ∧
    acc.1 <+: (scanFileContent p content acc).1 ∧
    acc.2 <+: (scanFileContent p content acc).2 := by
  by_cases hg : containsMarker content = true
  · simp only [scanFileContent, if_pos hg]
    exact scanLine_foldl_spec p (splitLines content) acc h1 h2
  · simp only [scanFileContent, if_neg hg]
    refine ⟨h1, h2, fun u hu => Or.inl hu, fun q hq => Or.inl hq, ?_,
      List.prefix_rfl, List.prefix_rfl⟩
    intro l hl hml
    exact absurd (containsMarker_of_line hl hml) hg

theorem scanFiles_spec :
    ∀ (files : List (Str × Str)) (acc : List Str × List Str),
      acc.1.Nodup → acc.2.Nodup →
      (scanFiles files acc).1.Nodup ∧
      (scanFiles files acc).2.Nodup ∧
      (∀ u ∈ (scanFiles files acc).1, u ∈ acc.1 ∨
        ∃ pc ∈ files, ∃ line ∈ splitLines pc.2,
          containsMarker line = true ∧ trimStr line = u) ∧
      (∀ q ∈ (scanFiles files acc).2, q ∈ acc.2 ∨
        ∃ pc ∈ files, pc.1 = q ∧
          ∃ line ∈ splitLines pc.2, containsMarker line = true) ∧
      (∀ pc ∈ files, ∀ line ∈ splitLines pc.2, containsMarker line = true →
        trimStr line ∈ (scanFiles files acc).1) ∧
      acc.1 <+: (scanFiles files acc).1 ∧
      acc.2 <+: (scanFiles files acc).2 := by
  intro files
  induction files with
  | nil =>
    intro acc h1 h2
    exact ⟨h1, h2, fun u hu => Or.inl hu, fun q hq => Or.inl hq,
      by simp, List.prefix_rfl, List.prefix_rfl⟩
  | cons pc rest ih =>
    intro acc h1 h2
    obtain ⟨f1, f2, f3, f4, f5, f6, f7⟩ := scanFileContent_spec pc.1 pc.2 acc h1 h2
    have hfold : scanFiles (pc :: rest) acc =
        scanFiles rest (scanFileContent pc.1 pc.2 acc) := rfl
    rw [hfold]
    obtain ⟨g1, g2, g3, g4, g5, g6, g7⟩ := ih (scanFileContent pc.1 pc.2 acc) f1 f2
    refine ⟨g1, g2, ?_, ?_, ?_, f6.trans g6, f7.trans g7⟩
    · intro u hu
      rcases g3 u hu with hu' | ⟨qc, hqc, l, hl, hml, htl⟩
      · rcases f3 u hu' with hu'' | ⟨l, hl, hml, htl⟩
        · exact Or.inl hu''
        · exact Or.inr ⟨pc, List.mem_cons_self _ _, l, hl, hml, htl⟩
      · exact Or.inr ⟨qc, List.mem_cons_of_mem _ hqc, l, hl, hml, htl⟩
    · intro q hq
      rcases g4 q hq with hq' | ⟨qc, hqc, hqp, l, hl, hml⟩
      · rcases f4 q hq' with hq'' | ⟨hqp, l, hl, hml⟩
        · exact Or.inl hq''
        · exact Or.inr ⟨pc, List.mem_cons_self _ _, hqp.symm ▸ rfl, l, hl, hml⟩
      · exact Or.inr ⟨qc, List.mem_cons_of_mem _ hqc, hqp, l, hl, hml⟩
    · intro qc hqc l hl hml
      rcases List.mem_cons.mp hqc with hqc' | hqc'
      · subst hqc'
        exact g6.subset (f5 l hl hml)
      · exact g5 qc hqc' l hl hml

theorem checkFilesGo_ok_eq {contents : Str → ContentOutcome} :
    ∀ (files : List TreeItem) (acc res : List Str × List Str),
      checkFilesGo contents files acc = .ok res →
      res = scanFiles (okFiles contents files) acc := by
  intro files
  induction files with
  | nil =>
    intro acc res h
    cases Except.ok.inj h
    rfl
  | cons it rest ih =>
    intro acc res h
    simp only [checkFilesGo] at h
    cases hco : contents it.path with
    | thrown e =>
      rw [hco] at h
      exact Except.noConfusion h
    | notOk =>
      rw [hco] at h
      have hres := ih acc res h
      rw [hres]
      simp [okFiles, scanFiles, List.filterMap_cons, hco]
    | ok body =>
      rw [hco] at h
      have hres := ih (scanFileContent it.path body acc) res h
      rw [hres]
      simp [okFiles, scanFiles, List.filterMap_cons, hco]

theorem scanLine_foldl_mem_locs (q : Str) :
    ∀ (lines : List Str) (acc : List Str × List Str) (x : Str),
      x ∈ (lines.foldl (scanLine q) acc).2 ↔
        x ∈ acc.2 ∨ (x = q ∧ ∃ l ∈ lines, containsMarker l = true ∧
          trimStr l ∉ acc.1) := by
  intro lines
  induction lines with
  | nil =>
    intro acc x
    simp
  | cons l ls ih =>
    intro acc x
    simp only [List.foldl_cons]
    by_cases hcond : (containsMarker l && !(acc.1.contains (trimStr l))) = true
    · have hand := hcond
      rw [Bool.and_eq_true] at hand
      have hm : containsMarker l = true := hand.1
      have hnc : trimStr l ∉ acc.1 := by simpa using hand.2
      have hstep : scanLine q acc l =
          (acc.1 ++ [trimStr l],
           if acc.2.contains q then acc.2 else acc.2 ++ [q]) := by
        rw [scanLine, if_pos hcond]
      have hacc2 : ∀ y, y ∈ (scanLine q acc l).2 ↔ y ∈ acc.2 ∨ y = q := by
        intro y
        rw [hstep]
        by_cases hq : acc.2.contains q = true
        · show y ∈ (if acc.2.contains q then acc.2 else acc.2 ++ [q]) ↔ _
          rw [if_pos hq]
          have hqmem : q ∈ acc.2 := by simpa using hq
          constructor
          · exact Or.inl
          · rintro (hy | hy)
            · exact hy
            · exact hy ▸ hqmem
        · show y ∈ (if acc.2.contains q then acc.2 else acc.2 ++ [q]) ↔ _
          rw [if_neg hq]
          constructor
          · intro hy
            rcases List.mem_append.mp hy with hy | hy
            · exact Or.inl hy
            · simp only [List.mem_singleton] at hy
              exact Or.inr hy
          · rintro (hy | hy)
            · exact List.mem_append_left _ hy
            · exact List.mem_append_right _ (by simp [hy])
      constructor
      · intro hx
        rcases (ih (scanLine q acc l) x).mp hx with hx' | ⟨hxq, _⟩
        · rcases (hacc2 x).mp hx' with h | h
          · exact Or.inl h
          · exact Or.inr ⟨h, l, List.mem_cons_self _ _, hm, hnc⟩
        · exact Or.inr ⟨hxq, l, List.mem_cons_self _ _, hm, hnc⟩
      · intro hx
        rw [ih]
        rcases hx with hx | ⟨hxq, _⟩
        · exact Or.inl ((hacc2 x).mpr (Or.inl hx))
        · exact Or.inl ((hacc2 x).mpr (Or.inr hxq))
    · have hstep : scanLine q acc l = acc := by
        rw [scanLine, if_neg hcond]
      have hnw : ¬(containsMarker l = true ∧ trimStr l ∉ acc.1) := by
        rintro ⟨hm, hnc⟩
        exact hcond (by simp [hm]; exact hnc)
      rw [hstep, ih]
      constructor
      · rintro (hx | ⟨hxq, w, hw, hwm, hwn⟩)
        · exact Or.inl hx
        · exact Or.inr ⟨hxq, w, List.mem_cons_of_mem _ hw, hwm, hwn⟩
      · rintro (hx | ⟨hxq, w, hw, hwm, hwn⟩)
        · exact Or.inl hx
        · rcases List.mem_cons.mp hw with hw' | hw'
          · subst hw'
            exact absurd ⟨hwm, hwn⟩ hnw
          · exact Or.inr ⟨hxq, w, hw', hwm, hwn⟩

theorem scanFileContent_mem_locs (q c : Str) (acc : List Str × List Str)
    (x : Str) :
    x ∈ (scanFileContent q c acc).2 ↔
      x ∈ acc.2 ∨ (x = q ∧ ∃ l ∈ splitLines c, containsMarker l = true ∧
        trimStr l ∉ acc.1) := by
  by_cases hg : containsMarker c = true
  · simp only [scanFileContent, if_pos hg]
    exact scanLine_foldl_mem_locs q (splitLines c) acc x
  · simp only [scanFileContent, if_neg hg]
    constructor
    · exact Or.inl
    · rintro (hx | ⟨_, l, hl, hm, _⟩)
      · exact hx
      · exact absurd (containsMarker_of_line hl hm) hg

theorem scanFiles_mem_locs :
    ∀ (fs : List (Str × Str)) (acc : List Str × List Str) (x : Str),
      x ∈ (scanFiles fs acc).2 ↔
        x ∈ acc.2 ∨ ∃ fs₁ pc fs₂, fs = fs₁ ++ pc :: fs₂ ∧ pc.1 = x ∧
          ∃ l ∈ splitLines pc.2, containsMarker l = true ∧
            trimStr l ∉ (scanFiles fs₁ acc).1 := by
  intro fs
  induction fs with
  | nil =>
    intro acc x
    constructor
    · exact Or.inl
    · rintro (hx | ⟨fs₁, pc, fs₂, heq, _⟩)
      · exact hx
      · exact absurd heq (by simp)
  | cons pc₀ rest ih =>
    intro acc x
    show x ∈ (scanFiles rest (scanFileContent pc₀.1 pc₀.2 acc)).2 ↔ _
    rw [ih]
    constructor
    · rintro (hx | ⟨fs₁, pc, fs₂, heq, hpcx, l, hl, hm, hn⟩)
      · rcases (scanFileContent_mem_locs pc₀.1 pc₀.2 acc x).mp hx with hx' | ⟨hxq, l, hl, hm, hn⟩
        · exact Or.inl hx'
        · exact Or.inr ⟨[], pc₀, rest, rfl, hxq.symm, l, hl, hm, hn⟩
      · exact Or.inr ⟨pc₀ :: fs₁, pc, fs₂, by rw [heq]; rfl, hpcx, l, hl, hm, hn⟩
    · rintro (hx | ⟨fs₁, pc, fs₂, heq, hpcx, l, hl, hm, hn⟩)
      · exact Or.inl ((scanFileContent_mem_locs pc₀.1 pc₀.2 acc x).mpr (Or.inl hx))
      · cases fs₁ with
        | nil =>
          rw [List.nil_append] at heq
          have hpc : pc₀ = pc ∧ rest = fs₂ := by
            constructor
            · exact (List.cons.inj heq).1
            · exact (List.cons.inj heq).2
          obtain ⟨hpc1, _⟩ := hpc
          subst hpc1
          exact Or.inl ((scanFileContent_mem_locs pc₀.1 pc₀.2 acc x).mpr
            (Or.inr ⟨hpcx.symm, l, hl, hm, hn⟩))
        | cons pc₀' fs₁' =>
          rw [List.cons_append] at heq
          have hpc1 : pc₀ = pc₀' := (List.cons.inj heq).1
          have hrest : rest = fs₁' ++ pc :: fs₂ := (List.cons.inj heq).2
          subst hpc1
          refine Or.inr ⟨fs₁', pc, fs₂, hrest, hpcx, l, hl, hm, ?_⟩
          exact hn

/-- C5 counterexample: with two candidate files holding the same marker
line, the scan records the line once and only the FIRST file's path; the
second file contains a marker line yet its path is absent from the
file-path list, refuting "records the source file path of every file in
which a match was found". -/
theorem checkRepoForJfrog_path_claim_cex :
    checkRepoForJfrog exRepoA (.ok exTreeC5) exContentsC5 =
      .ok { exRepoA with
              hasJfrog := some true
              jfrogUrls := ["url = jfrog".toList]
              configLocations := ["a/.lfsconfig".toList] } ∧
    (∃ line ∈ splitLines "url = jfrog".toList, containsMarker line = true) ∧
    "b/.lfsconfig".toList ∉ ["a/.lfsconfig".toList] := by
  refine ⟨by decide, by decide, by decide⟩

/-- C5 (amended): for every repository and candidate file contents, the
matched-line list holds exactly the trimmed marker lines of the
successfully fetched candidate files, without duplicates; the file-path
list is duplicate-free and contains a path exactly when some fetched
candidate file with that path contributes a marker line whose trimmed form
was not yet recorded when that file was scanned (so a file all of whose
marker lines were already recorded from earlier files is absent); and the
repository is classified a match exactly when at least one marker line
exists among the fetched candidate files. -/
theorem checkRepoForJfrog_scan_spec (repo : Repository)
    (items : List TreeItem) (contents : Str → ContentOutcome)
    (r : Repository)
    (h : checkRepoForJfrog repo (.ok items) contents = .ok r) :
    r.jfrogUrls.Nodup ∧
    r.configLocations.Nodup ∧
    (∀ u ∈ r.jfrogUrls, ∃ pc ∈ okFiles contents (items.filter isLfsConfigBlob),
      ∃ line ∈ splitLines pc.2, containsMarker line = true ∧ trimStr line = u) ∧
    (∀ pc ∈ okFiles contents (items.filter isLfsConfigBlob),
      ∀ line ∈ splitLines pc.2, containsMarker line = true →
        trimStr line ∈ r.jfrogUrls) ∧
    (∀ q ∈ r.configLocations,
      ∃ pc ∈ okFiles contents (items.filter isLfsConfigBlob),
        pc.1 = q ∧ ∃ line ∈ splitLines pc.2, containsMarker line = true) ∧
    (r.hasJfrog = some true ↔
      ∃ pc ∈ okFiles contents (items.filter isLfsConfigBlob),
        ∃ line ∈ splitLines pc.2, containsMarker line = true) ∧
    (∀ x, x ∈ r.configLocations ↔
      ∃ fs₁ pc fs₂,
        okFiles contents (items.filter isLfsConfigBlob) = fs₁ ++ pc :: fs₂ ∧
        pc.1 = x ∧ ∃ line ∈ splitLines pc.2, containsMarker line = true ∧
          trimStr line ∉ (scanFiles fs₁ (([], []) : List Str × List Str)).1) := by
  simp only [checkRepoForJfrog] at h
  split at h
  case isTrue hempty =>
    have hfiles : items.filter isLfsConfigBlob = [] := by
      simpa using hempty
    cases Except.ok.inj h
    rw [hfiles]
    refine ⟨by simp [noMatchResult], by simp [noMatchResult],
      by simp [noMatchResult, okFiles], by simp [okFiles],
      by simp [noMatchResult], by simp [noMatchResult, okFiles], ?_⟩
    intro x
    constructor
    · intro hx
      exact absurd hx (by simp [noMatchResult])
    · rintro ⟨fs₁, pc, fs₂, heq, _⟩
      have : okFiles contents ([] : List TreeItem) = [] := rfl
      rw [this] at heq
      exact absurd heq (by simp)
  case isFalse hne =>
    cases hgo : checkFilesGo contents (items.filter isLfsConfigBlob) ([], []) with
    | error e =>
      rw [hgo] at h
      exact Except.noConfusion h
    | ok acc =>
      rw [hgo] at h
      cases Except.ok.inj h
      have hacc : acc = scanFiles (okFiles contents (items.filter isLfsConfigBlob)) ([], []) :=
        checkFilesGo_ok_eq _ _ _ hgo
      obtain ⟨g1, g2, g3, g4, g5, g6, g7⟩ :=
        scanFiles_spec (okFiles contents (items.filter isLfsConfigBlob)) ([], [])
          (by simp) (by simp)
      rw [← hacc] at g1 g2 g3 g4 g5
      refine ⟨g1, g2, ?_, g5, ?_, ?_, ?_⟩
      · intro u hu
        rcases g3 u hu with hu' | hex
        · exact absurd hu' (List.not_mem_nil u)
        · exact hex
      · intro q hq
        rcases g4 q hq with hq' | ⟨pc, hpc, hqp, l, hl, hml⟩
        · exact absurd hq' (List.not_mem_nil q)
        · exact ⟨pc, hpc, hqp, l, hl, hml⟩
      · constructor
        · intro hj
          have hne1 : acc.1 ≠ [] := by
            intro hnil
            simp [hnil] at hj
          obtain ⟨u, hu⟩ := List.exists_mem_of_ne_nil _ hne1
          rcases g3 u hu with hu' | ⟨pc, hpc, l, hl, hml, _⟩
          · exact absurd hu' (List.not_mem_nil u)
          · exact ⟨pc, hpc, l, hl, hml⟩
        · rintro ⟨pc, hpc, l, hl, hml⟩
          have hmem : trimStr l ∈ acc.1 := g5 pc hpc l hl hml
          have hne1 : acc.1 ≠ [] := List.ne_nil_of_mem hmem
          simp [hne1]
      · intro x
        have hiff := scanFiles_mem_locs
          (okFiles contents (items.filter isLfsConfigBlob)) ([], []) x
        rw [← hacc] at hiff
        constructor
        · intro hx
          rcases hiff.mp hx with hx' | hex
          · exact absurd hx' (List.not_mem_nil x)
          · exact hex
        · intro hex
          exact hiff.mpr (Or.inr hex)

/-- Witness for C5 (amended) at a concrete input: applying the amended
specification to the counterexample scan, the classification equivalence
holds. -/
theorem checkRepoForJfrog_scan_spec_witness :
    ({ exRepoA with
         hasJfrog := some true
         jfrogUrls := ["url = jfrog".toList]
         configLocations := ["a/.lfsconfig".toList] } : Repository).hasJfrog = some true ↔
      ∃ pc ∈ okFiles exContentsC5 (exTreeC5.filter isLfsConfigBlob),
        ∃ line ∈ splitLines pc.2, containsMarker line = true :=
  (checkRepoForJfrog_scan_spec exRepoA exTreeC5 exContentsC5
      { exRepoA with
          hasJfrog := some true
          jfrogUrls := ["url = jfrog".toList]
          configLocations := ["a/.lfsconfig".toList] }
      (by decide)).2.2.2.2.2.1

theorem fetchOrgReposGo_spec (pages : Nat → List RawRepo) (webBase : Str) :
    ∀ (n start fuel : Nat) (acc : List Repository) (visited : List Nat),
      (∀ m, start ≤ m → m < start + n → 100 ≤ (pages m).length) →
      (pages (start + n)).length < 100 →
      n < fuel →
      fetchOrgReposGo pages webBase fuel start acc visited =
        some (acc ++ (List.range' start (n + 1)).flatMap
            (fun p => (pages p).map (mapRawRepo webBase)),
          visited ++ List.range' start (n + 1)) := by
  intro n
  induction n with
  | zero =>
    intro start fuel acc visited hlong hshort hfuel
    cases fuel with
    | zero => omega
    | succ f =>
      rw [Nat.add_zero] at hshort
      simp only [fetchOrgReposGo]
      by_cases hz : (pages start).length = 0
      · rw [if_pos hz]
        have hempty : pages start = [] := List.length_eq_zero.mp hz
        simp [List.range'_succ, hempty]
      · rw [if_neg hz, if_pos hshort]
        simp [List.range'_succ]
  | succ n ih =>
    intro start fuel acc visited hlong hshort hfuel
    cases fuel with
    | zero => omega
    | succ f =>
      have hfirst : 100 ≤ (pages start).length :=
        hlong start le_rfl (by omega)
      simp only [fetchOrgReposGo]
      rw [if_neg (by omega), if_neg (by omega)]
      have hrec := ih (start + 1) f
        (acc ++ (pages start).map (mapRawRepo webBase)) (visited ++ [start])
        (fun m hm1 hm2 => hlong m (by omega) (by omega))
        (by
          have : start + 1 + n = start + (n + 1) := by omega
          rw [this]
          exact hshort)
        (by omega)
      rw [hrec]
      rw [List.range'_succ start (n + 1)]
      simp [List.flatMap_cons, List.append_assoc]

/-- C8: when some page is short (fewer than 100 entries) or empty and
every earlier page is full, `fetchOrgRepos` terminates, requests exactly
pages `1, …, k` (each once, in strictly increasing order, stopping at the
first short or empty page `k`), and returns the concatenation of the
fetched pages, so the repository count is the sum of the per-page
counts. -/
theorem fetchOrgRepos_pagination (pages : Nat → List RawRepo)
    (webBase : Str) (k fuel : Nat)
    (hk : 1 ≤ k) (hshort : (pages k).length < 100)
    (hfull : ∀ m, 1 ≤ m → m < k → 100 ≤ (pages m).length)
    (hfuel : k ≤ fuel) :
    fetchOrgRepos pages webBase none fuel =
      some ((List.range' 1 k).flatMap
          (fun p => (pages p).map (mapRawRepo webBase)),
        List.range' 1 k) ∧
    (List.range' 1 k).Pairwise (· < ·) ∧
    ((List.range' 1 k).flatMap
        (fun p => (pages p).map (mapRawRepo webBase))).length =
      ((List.range' 1 k).map (fun p => (pages p).length)).sum := by
  refine ⟨?_, List.pairwise_lt_range' 1 k 1 (by omega), ?_⟩
  · have hspec := fetchOrgReposGo_spec pages webBase (k - 1) 1 fuel [] []
      (fun m hm1 hm2 => hfull m hm1 (by omega))
      (by
        have : 1 + (k - 1) = k := by omega
        rw [this]
        exact hshort)
      (by omega)
    have hk1 : k - 1 + 1 = k := by omega
    rw [hk1] at hspec
    simpa [fetchOrgRepos] using hspec
  · rw [List.length_flatMap]
    congr 1
    apply List.map_congr_left
    intro p _
    simp

/-- Witness for C8: with a full page 1 and a short page 2, pagination
visits pages 1 and 2 and returns their concatenation. -/
theorem fetchOrgRepos_pagination_witness :
    fetchOrgRepos exPages "https://github.com".toList none 2 =
      some ((List.range' 1 2).flatMap
          (fun p => (exPages p).map (mapRawRepo "https://github.com".toList)),
        List.range' 1 2) :=
  (fetchOrgRepos_pagination exPages "https://github.com".toList 2 2
      (by decide)
      (by simp [exPages])
      (by
        intro m hm1 hm2
        have hm : m = 1 := by omega
        subst hm
        simp [exPages])
      le_rfl).1

theorem getField_repoJson_id (r : Repository) :
    (Repository.toJson r).getField "id".toList = some (Json.num (Int.ofNat r.id)) := rfl

theorem getField_repoJson_name (r : Repository) :
    (Repository.toJson r).getField "name".toList = some (Json.str r.name) := rfl

theorem getField_repoJson_full_name (r : Repository) :
    (Repository.toJson r).getField "full_name".toList = some (Json.str r.full_name) := rfl

theorem getField_repoJson_html_url (r : Repository) :
    (Repository.toJson r).getField "html_url".toList = some (Json.str r.html_url) := rfl

theorem getField_repoJson_description (r : Repository) :
    (Repository.toJson r).getField "description".toList = some (Json.ofOptStr r.description) := rfl

theorem getField_repoJson_size (r : Repository) :
    (Repository.toJson r).getField "size".toList = some (Json.num (Int.ofNat r.size)) := rfl

theorem getField_repoJson_default_branch (r : Repository) :
    (Repository.toJson r).getField "default_branch".toList = some (Json.str r.default_branch) := rfl

theorem getField_repoJson_pushed_at (r : Repository) :
    (Repository.toJson r).getField "pushed_at".toList = some (Json.str r.pushed_at) := rfl

theorem getField_repoJson_hasJfrog (r : Repository) :
    (Repository.toJson r).getField "hasJfrog".toList = some (Json.ofOptBool r.hasJfrog) := rfl

theorem getField_repoJson_jfrogUrls (r : Repository) :
    (Repository.toJson r).getField "jfrogUrls".toList =
      some (Json.arr (r.jfrogUrls.map Json.str)) := rfl

theorem getField_repoJson_configLocations (r : Repository) :
    (Repository.toJson r).getField "configLocations".toList =
      some (Json.arr (r.configLocations.map Json.str)) := rfl

theorem mapM_asStr_str (l : List Str) :
    (l.map Json.str).mapM Json.asStr = some l := by
  induction l with
  | nil => rfl
  | cons a as ih =>
    rw [List.map_cons, List.mapM_cons, ih]
    rfl

theorem mapM_asNat_num (l : List Nat) :
    (l.map (fun i => Json.num (Int.ofNat i))).mapM Json.asNat = some l := by
  induction l with
  | nil => rfl
  | cons a as ih =>
    rw [List.map_cons, List.mapM_cons, ih]
    rfl

theorem decodeRepository_toJson (r : Repository) :
    decodeRepository (Repository.toJson r) = some r := by
  obtain ⟨i, nm, fn, hu, ds, sz, db, pa, hj, ju, cl⟩ := r
  cases ds <;> cases hj <;>
  · simp only [decodeRepository, getField_repoJson_id, getField_repoJson_name,
      getField_repoJson_full_name, getField_repoJson_html_url,
      getField_repoJson_description, getField_repoJson_size,
      getField_repoJson_default_branch, getField_repoJson_pushed_at,
      getField_repoJson_hasJfrog, getField_repoJson_jfrogUrls,
      getField_repoJson_configLocations, Json.ofOptStr,
      Json.ofOptBool, Json.asNat, intToNatOpt, Json.asStr, Json.asOptStr,
      Json.asOptBool, Json.asStrList, Option.some_bind, mapM_asStr_str]
    rfl

theorem mapM_decodeRepository_toJson (l : List Repository) :
    (l.map Repository.toJson).mapM decodeRepository = some l := by
  induction l with
  | nil => rfl
  | cons a as ih =>
    rw [List.map_cons, List.mapM_cons, decodeRepository_toJson a, ih]
    rfl

theorem getField_stateJson_orgName (s : ScanState) :
    (ScanState.toJson s).getField "orgName".toList = some (Json.str s.orgName) := by
  obtain ⟨og, ca, ar, si, pi, jr, le, ic, gh⟩ := s
  cases le <;> cases gh <;> rfl

theorem getField_stateJson_createdAt (s : ScanState) :
    (ScanState.toJson s).getField "createdAt".toList = some (Json.str s.createdAt) := by
  obtain ⟨og, ca, ar, si, pi, jr, le, ic, gh⟩ := s
  cases le <;> cases gh <;> rfl

theorem getField_stateJson_allRepos (s : ScanState) :
    (ScanState.toJson s).getField "allRepos".toList =
      some (Json.arr (s.allRepos.map Repository.toJson)) := by
  obtain ⟨og, ca, ar, si, pi, jr, le, ic, gh⟩ := s
  cases le <;> cases gh <;> rfl

theorem getField_stateJson_scannedRepoIds (s : ScanState) :
    (ScanState.toJson s).getField "scannedRepoIds".toList =
      some (Json.arr (s.scannedRepoIds.map (fun i => Json.num (Int.ofNat i)))) := by
  obtain ⟨og, ca, ar, si, pi, jr, le, ic, gh⟩ := s
  cases le <;> cases gh <;> rfl

theorem getField_stateJson_pendingRepoIds (s : ScanState) :
    (ScanState.toJson s).getField "pendingRepoIds".toList =
      some (Json.arr (s.pendingRepoIds.map (fun i => Json.num (Int.ofNat i)))) := by
  obtain ⟨og, ca, ar, si, pi, jr, le, ic, gh⟩ := s
  cases le <;> cases gh <;> rfl

theorem getField_stateJson_jfrogRepos (s : ScanState) :
    (ScanState.toJson s).getField "jfrogRepos".toList =
      some (Json.arr (s.jfrogRepos.map Repository.toJson)) := by
  obtain ⟨og, ca, ar, si, pi, jr, le, ic, gh⟩ := s
  cases le <;> cases gh <;> rfl

theorem getField_stateJson_lastError (s : ScanState) :
    (ScanState.toJson s).getField "lastError".toList = s.lastError.map Json.str := by
  obtain ⟨og, ca, ar, si, pi, jr, le, ic, gh⟩ := s
  cases le <;> cases gh <;> rfl

theorem getField_stateJson_isComplete (s : ScanState) :
    (ScanState.toJson s).getField "isComplete".toList = some (Json.bool s.isComplete) := by
  obtain ⟨og, ca, ar, si, pi, jr, le, ic, gh⟩ := s
  cases le <;> cases gh <;> rfl

theorem getField_stateJson_ghesHost (s : ScanState) :
    (ScanState.toJson s).getField "ghesHost".toList = s.ghesHost.map Json.str := by
  obtain ⟨og, ca, ar, si, pi, jr, le, ic, gh⟩ := s
  cases le <;> cases gh <;> rfl

theorem decodeScanState_toJson (s : ScanState) :
    decodeScanState (ScanState.toJson s) = some s := by
  obtain ⟨og, ca, ar, si, pi, jr, le, ic, gh⟩ := s
  cases le <;> cases gh <;>
  · simp only [decodeScanState, getField_stateJson_orgName,
      getField_stateJson_createdAt, getField_stateJson_allRepos,
      getField_stateJson_scannedRepoIds, getField_stateJson_pendingRepoIds,
      getField_stateJson_jfrogRepos, getField_stateJson_lastError,
      getField_stateJson_isComplete, getField_stateJson_ghesHost,
      Option.map_none, Option.map_some, Json.asStr, Json.asBool,
      Json.asNatList, Json.asRepoList, Option.some_bind, mapM_asNat_num,
      mapM_decodeRepository_toJson]
    rfl

theorem validScanStateJson_toJson (s : ScanState) :
    validScanStateJson (ScanState.toJson s) = true := by
  simp only [validScanStateJson, getField_stateJson_orgName,
    getField_stateJson_allRepos, getField_stateJson_scannedRepoIds,
    getField_stateJson_pendingRepoIds, getField_stateJson_jfrogRepos]
  rfl

/-- C7: serializing a Scan State and deserializing it reproduces the
document unchanged and determines every field of the original state
(lossless round-trip); a failed `JSON.parse`, a non-string organization
name, or any of the four collection fields missing or non-array makes
`parseScanState` return `null` — and `parseScanState` is a total function,
so no input makes it throw. -/
theorem parseScanState_roundtrip :
    (∀ s : ScanState,
      parseScanState (some (ScanState.toJson s)) = some (ScanState.toJson s) ∧
      decodeScanState (ScanState.toJson s) = some s) ∧
    parseScanState none = none ∧
    (∀ v : Json, (v.getField "orgName".toList).any Json.isStr = false →
      parseScanState (some v) = none) ∧
    (∀ v : Json,
      ((v.getField "allRepos".toList).any Json.isArr = false ∨
       (v.getField "scannedRepoIds".toList).any Json.isArr = false ∨
       (v.getField "pendingRepoIds".toList).any Json.isArr = false ∨
       (v.getField "jfrogRepos".toList).any Json.isArr = false) →
      parseScanState (some v) = none) := by
  refine ⟨?_, rfl, ?_, ?_⟩
  · intro s
    refine ⟨?_, decodeScanState_toJson s⟩
    simp [parseScanState, validScanStateJson_toJson s]
  · intro v hv
    simp at hv
    simp [parseScanState, validScanStateJson, hv]
  · intro v hv
    rcases hv with hv | hv | hv | hv <;>
    · simp at hv
      simp [parseScanState, validScanStateJson, hv]

/-- Witness for C7: the concrete round-trip succeeds, and a document whose
organization name is a number is rejected. -/
theorem parseScanState_roundtrip_witness :
    decodeScanState (ScanState.toJson exState1) = some exState1 ∧
    parseScanState (some (Json.obj [("orgName".toList, Json.num 3)])) = none :=
  ⟨(parseScanState_roundtrip.1 exState1).2,
   parseScanState_roundtrip.2.2.1 (Json.obj [("orgName".toList, Json.num 3)]) rfl⟩

/-- C10: `parseScanState` validates only field presence and types, not the
Scan State invariant: this structurally valid document is accepted
unchanged although id 1 is both scanned and pending, so a deserialized
checkpoint is not guaranteed to satisfy the disjointness invariant. -/
theorem parseScanState_accepts_invariant_violation :
    parseScanState (some exOverlapJson) = some exOverlapJson ∧
    (1 : Int) ∈ scanStateJsonIds exOverlapJson "scannedRepoIds".toList ∧
    (1 : Int) ∈ scanStateJsonIds exOverlapJson "pendingRepoIds".toList := by
  refine ⟨rfl, ?_, ?_⟩ <;>
    simp [scanStateJsonIds, exOverlapJson, Json.getField]

end GithubLfs
